import Mathlib

/-!
# Verification of the PyTeNet tensor-network core

Shallow embedding of the MPS/MPO tensor-network engine described by the
repository's specification and exercised by `doc/basics.ipynb`.  The library
modules themselves (`mps.py`, `mpo.py`, `operation.py`) are not part of the
source tree here, so the operations are modelled from the specification, as
noted in the doc comment of each definition.

Scalars are taken in an arbitrary commutative ring with a star operation
(covering the complex numbers used by the code); the orthonormalization
development additionally assumes a linearly ordered field with trivial star,
in which the QR factorization contract of the spec is expressible exactly.
Tensors are total functions from natural-number indices, together with the
declared dimensions; all contractions sum over the declared ranges.
-/

set_option maxHeartbeats 1600000
set_option linter.unusedSectionVars false

/-- Error taxonomy of the spec (section 7). -/
inductive TNError where
  | dimensionMismatch
  | shapeError
  | degenerateBond
  | quantumNumberViolation
deriving DecidableEq, Repr

/-- An MPS site tensor: rank 3, indexed (physical, bond-left, bond-right),
with declared dimensions `d`, `Dl`, `Dr`. -/
structure MPSTensor (K : Type) where
  d : ℕ
  Dl : ℕ
  Dr : ℕ
  A : ℕ → ℕ → ℕ → K

/-- An MPO site tensor: rank 4, indexed (physical-out, physical-in,
bond-left, bond-right); both physical dimensions equal `d` per the spec. -/
structure MPOTensor (K : Type) where
  d : ℕ
  Dl : ℕ
  Dr : ℕ
  W : ℕ → ℕ → ℕ → ℕ → K

instance {K : Type} [Zero K] : Inhabited (MPSTensor K) :=
  ⟨⟨0, 0, 0, fun _ _ _ => 0⟩⟩

instance {K : Type} [Zero K] : Inhabited (MPOTensor K) :=
  ⟨⟨0, 0, 0, fun _ _ _ _ => 0⟩⟩

variable {K : Type} [CommRing K] [StarRing K]

/-- Per-site physical dimensions of an MPS. -/
def physDims (ts : List (MPSTensor K)) : List ℕ := ts.map MPSTensor.d

/-- Per-site physical dimensions of an MPO. -/
def physDimsO (ws : List (MPOTensor K)) : List ℕ := ws.map MPOTensor.d

/-- Left bond dimension of a chain (1 for the empty chain, matching the
trivial boundary bond). -/
def leftDim : List (MPSTensor K) → ℕ
  | [] => 1
  | t :: _ => t.Dl

/-- Left bond dimension of an MPO chain. -/
def leftDimO : List (MPOTensor K) → ℕ
  | [] => 1
  | w :: _ => w.Dl

/-- Right bond dimension of a chain (1 for the empty chain). -/
def rightDim : List (MPSTensor K) → ℕ
  | [] => 1
  | [t] => t.Dr
  | _ :: ts => rightDim ts

/-- Amplitude of an MPS chain: the matrix element, between left bond index
`a` and right bond index `b`, of the left-to-right contraction of the site
tensors along the physical configuration `σ`.  This is the contraction the
spec's `as_vector` performs. -/
def mpsAmp : List (MPSTensor K) → List ℕ → ℕ → ℕ → K
  | [], σ, a, b => if σ = [] ∧ a = b then 1 else 0
  | t :: ts, σ, a, b =>
    match σ with
    | [] => 0
    | s :: σ2 => ∑ c ∈ Finset.range t.Dr, t.A s a c * mpsAmp ts σ2 c b

/-- Amplitude of an MPO chain between physical configurations `σ` (out) and
`τ` (in), and bond indices `a`, `b`. -/
def mpoAmp : List (MPOTensor K) → List ℕ → List ℕ → ℕ → ℕ → K
  | [], σ, τ, a, b => if σ = [] ∧ τ = [] ∧ a = b then 1 else 0
  | w :: ws, σ, τ, a, b =>
    match σ, τ with
    | s :: σ2, r :: τ2 =>
      ∑ c ∈ Finset.range w.Dr, w.W s r a c * mpoAmp ws σ2 τ2 c b
    | _, _ => 0

/-- Modelled from the spec: `as_vector` of an MPS (with the trivial boundary
bonds squeezed away, i.e. fixed to index 0), viewed as a function of the
physical multi-index. -/
def as_vector (ts : List (MPSTensor K)) : List ℕ → K :=
  fun σ => mpsAmp ts σ 0 0

/-- Modelled from the spec: `as_matrix` of an MPO, viewed as a function of
the two physical multi-indices. -/
def as_matrix (ws : List (MPOTensor K)) : List ℕ → List ℕ → K :=
  fun σ τ => mpoAmp ws σ τ 0 0

/-- Sum of `f` over all physical multi-indices with per-site ranges `ds`. -/
def sumIdx : List ℕ → (List ℕ → K) → K
  | [], f => f []
  | d :: ds, f => ∑ s ∈ Finset.range d, sumIdx ds (fun σ => f (s :: σ))

/-- All physical multi-indices for per-site dimensions `ds`, in row-major
(leftmost site most significant) order. -/
def configs : List ℕ → List (List ℕ)
  | [] => [[]]
  | d :: ds => (List.range d).flatMap fun s => (configs ds).map fun σ => s :: σ

/-- The dense state vector of an MPS, materialized as a list in the
canonical index order: entry `σ` is `as_vector ts σ`. -/
def as_vector_list (ts : List (MPSTensor K)) : List K :=
  (configs (physDims ts)).map (as_vector ts)

/-- The dense matrix of an MPO, materialized as a list of rows. -/
def as_matrix_list (ws : List (MPOTensor K)) : List (List K) :=
  (configs (physDimsO ws)).map fun σ =>
    (configs (physDimsO ws)).map fun τ => as_matrix ws σ τ

/-- One sweep step of the expectation-value evaluator: the boundary tensor
`E` (bra-bond × mpo-bond × ket-bond) is updated through one site; after the
last site the boundary has collapsed to its single entry `E 0 0 0`. -/
def opAvgAux : List (MPSTensor K) → List (MPOTensor K) → (ℕ → ℕ → ℕ → K) → K
  | [], _, E => E 0 0 0
  | t :: ts, ws, E =>
    match ws with
    | [] => E 0 0 0
    | w :: ws2 =>
      opAvgAux ts ws2 (fun a2 b2 c2 =>
        ∑ a ∈ Finset.range t.Dl, ∑ b ∈ Finset.range w.Dl,
        ∑ c ∈ Finset.range t.Dl,
        ∑ sp ∈ Finset.range t.d, ∑ s ∈ Finset.range t.d,
          star (t.A sp a a2) * w.W sp s b b2 * t.A s c c2 * E a b c)

/-- The initial 1×1×1 boundary tensor, the scalar 1. -/
def deltaE : ℕ → ℕ → ℕ → K :=
  fun a b c => if a = 0 ∧ b = 0 ∧ c = 0 then 1 else 0

/-- Modelled from the spec: `operator_average(mps, mpo)`; requires matching
site counts and per-site physical dimensions (else `DimensionMismatch`),
then sweeps the boundary tensor left to right. -/
def operator_average (ts : List (MPSTensor K)) (ws : List (MPOTensor K)) :
    Except TNError K :=
  if ts.map MPSTensor.d = ws.map MPOTensor.d then
    .ok (opAvgAux ts ws deltaE)
  else
    .error .dimensionMismatch

/-- Squared 2-norm of the dense vector of an MPS. -/
def normSq (ts : List (MPSTensor K)) : K :=
  sumIdx (physDims ts) fun σ => star (as_vector ts σ) * as_vector ts σ

/-- Bond-dimension chaining including the trivial right boundary: each site's
right bond dimension equals the left bond dimension of the remaining chain,
and the final right bond dimension is 1. -/
def rchain : List (MPSTensor K) → Prop
  | [] => True
  | t :: ts => t.Dr = leftDim ts ∧ rchain ts

/-- Bond-dimension chaining for an MPO chain. -/
def rchainO : List (MPOTensor K) → Prop
  | [] => True
  | w :: ws => w.Dr = leftDimO ws ∧ rchainO ws

/-- The sandwiched amplitude ⟨bra chain from bond `a` | MPO chain from bond
`b` | ket chain from bond `c`⟩, with all right boundaries at index 0. -/
def sandwich (ts : List (MPSTensor K)) (ws : List (MPOTensor K))
    (a b c : ℕ) : K :=
  sumIdx (physDims ts) fun σ => sumIdx (physDims ts) fun τ =>
    star (mpsAmp ts σ a 0) * mpoAmp ws σ τ b 0 * mpsAmp ts τ c 0

/-! ## Construction of MPS and MPO objects -/

/-- Fill policy for MPS construction.  Following the spec's design note,
randomness is modelled by an explicitly passed generator `g`
(site, physical, bond-left, bond-right ↦ value). -/
inductive MPSFill (K : Type) where
  | zero
  | random (g : ℕ → ℕ → ℕ → ℕ → K)

/-- Charge conservation for an MPS site entry: left-bond charge + physical
charge = right-bond charge (incoming legs +, outgoing leg −). -/
abbrev permitted (qd ql qr : List ℤ) (s a b : ℕ) : Prop :=
  ql.getD a 0 + qd.getD s 0 = qr.getD b 0

/-- One site tensor built by the MPS constructor: zero-filled, or filled
from the generator at quantum-number-permitted positions only. -/
def mkTensor (qd ql qr : List ℤ) (fill : MPSFill K) (i : ℕ) : MPSTensor K :=
  ⟨qd.length, ql.length, qr.length,
    fun s a b =>
      match fill with
      | .zero => 0
      | .random g => if permitted qd ql qr s a b then g i s a b else 0⟩

/-- Modelled from the spec: the MPS constructor (pytenet's `MPS.__init__` is
not in the source tree).  `Construct(physicalQN, bondQN, fillMode)` with
`fillMode ∈ {zero, random}`; fails with `DimensionMismatch` when
`len(bondQN) ≠ nsites + 1`, and validates the data-model invariant that the
boundary bond dimensions are 1. -/
def mpsConstruct (qd : List ℤ) (qD : List (List ℤ)) (L : ℕ) (fill : MPSFill K) :
    Except TNError (List (MPSTensor K)) :=
  if qD.length = L + 1 then
    if (qD.getD 0 []).length = 1 ∧ (qD.getD L []).length = 1 then
      .ok ((List.range L).map fun i =>
        mkTensor (K := K) qd (qD.getD i []) (qD.getD (i + 1) []) fill i)
    else .error .dimensionMismatch
  else .error .dimensionMismatch

/-- A virtual operator channel of the MPO assembly: coefficient times a
local physical operator, connecting virtual bond state `src` to `dst`. -/
structure OpChannel (K : Type) where
  src : ℕ
  dst : ℕ
  coeff : K
  op : ℕ → ℕ → K

/-- Charge conservation for an MPO site entry, with out/physical-out and
left-bond legs incoming and physical-in and right-bond legs outgoing. -/
abbrev permittedO (qdOut qdIn ql qr : List ℤ) (s s2 a b : ℕ) : Prop :=
  ql.getD a 0 + qdOut.getD s 0 = qr.getD b 0 + qdIn.getD s2 0

/-- One site tensor of the MPO assembly: the (out, in) block at bond index
(a, b) is the sum of the contributions of the channels connecting virtual
state `a` to virtual state `b`, masked by charge conservation. -/
def mkMPOTensor (d : ℕ) (qdOut qdIn ql qr : List ℤ) (chs : List (OpChannel K)) :
    MPOTensor K :=
  ⟨d, ql.length, qr.length,
    fun s s2 a b =>
      if permittedO qdOut qdIn ql qr s s2 a b then
        ((chs.filter fun ch => ch.src == a && ch.dst == b).map
          fun ch => ch.coeff * ch.op s s2).sum
      else 0⟩

/-- Modelled from the spec: the generic local-operator-to-MPO assembly
routine (pytenet's MPO construction is not in the source tree).  Builders
supply per-site channel lists and per-bond quantum numbers; validated
against the bond count and the trivial boundary bonds. -/
def mpoAssembly (d : ℕ) (qdOut qdIn : List ℤ) (qV : List (List ℤ)) (L : ℕ)
    (chs : ℕ → List (OpChannel K)) : Except TNError (List (MPOTensor K)) :=
  if qV.length = L + 1 then
    if (qV.getD 0 []).length = 1 ∧ (qV.getD L []).length = 1 then
      .ok ((List.range L).map fun i =>
        mkMPOTensor (K := K) d qdOut qdIn (qV.getD i []) (qV.getD (i + 1) []) (chs i))
    else .error .dimensionMismatch
  else .error .dimensionMismatch

/-! ## Orthonormalization (QR sweep)

The QR-based canonicalization sweep of the spec (section 4.3).  The QR
factorization itself has no closed form over an arbitrary computable field,
so the sweep is modelled as a relation: a derivation certifies one run of
the algorithm, with each step's QR output constrained by the factorization
contract of spec section 4.2.  Scalars are taken in a linearly ordered
field with trivial star (exact real arithmetic), in which column norms and
the nonnegative-diagonal normalization of the factor `R` are expressible. -/

/-- The identity matrix as a total function on indices. -/
def Imat : ℕ → ℕ → K := fun i j => if i = j then 1 else 0

/-- Contract a triangular factor `R` (with `k` rows) from the left into the
next site tensor: the new entry (s, a, b) is Σ_c R a c · A s c b. -/
def absorb (R : ℕ → ℕ → K) (k : ℕ) (t : MPSTensor K) : MPSTensor K :=
  ⟨t.d, k, t.Dr, fun s a b => ∑ c ∈ Finset.range t.Dl, R a c * t.A s c b⟩

/-- Reshape a site tensor into its (d·Dl) × Dr matrix, combining the
physical and left-bond indices row-major (row = s · Dl + a). -/
def matOf (t : MPSTensor K) : ℕ → ℕ → K :=
  fun rr b => t.A (rr / t.Dl) (rr % t.Dl) b

/-- Rebuild a rank-3 site tensor with right bond dimension `k2` from the
orthonormal factor `Q` of the QR step applied to `t`'s matricization. -/
def siteOf (t : MPSTensor K) (Q : ℕ → ℕ → K) (k2 : ℕ) : MPSTensor K :=
  ⟨t.d, t.Dl, k2, fun s a b => Q (s * t.Dl + a) b⟩

/-- Scale the last site tensor of a chain by `u`. -/
def scaleLast (u : K) : List (MPSTensor K) → List (MPSTensor K)
  | [] => []
  | [t] => [⟨t.d, t.Dl, t.Dr, fun s a b => u * t.A s a b⟩]
  | t :: ts => t :: scaleLast u ts

/-- Left-orthonormality of a site tensor: contracting it with its own
conjugate over the physical and left-bond indices yields the identity over
the right-bond index. -/
def leftOrthonormal (t : MPSTensor K) : Prop :=
  ∀ b, b < t.Dr → ∀ b2, b2 < t.Dr →
    (∑ s ∈ Finset.range t.d, ∑ a ∈ Finset.range t.Dl,
      star (t.A s a b) * t.A s a b2) = Imat b b2

/-- A site tensor with nondegenerate effective bonds: all three dimensions
positive and at least one in-range entry nonzero (effective rank not 0). -/
def Nondeg (t : MPSTensor K) : Prop :=
  1 ≤ t.d ∧ 1 ≤ t.Dl ∧ 1 ≤ t.Dr ∧
    ∃ s, s < t.d ∧ ∃ a, a < t.Dl ∧ ∃ b, b < t.Dr ∧ t.A s a b ≠ 0

/-- Degenerate site data in the sense of the spec's `DegenerateBondError`:
a zero-dimensional or fully-zero site tensor. -/
def BadSite (t : MPSTensor K) : Prop :=
  t.d = 0 ∨ t.Dr = 0 ∨
    ∀ s, s < t.d → ∀ a, a < t.Dl → ∀ b, b < t.Dr → t.A s a b = 0

/-- Internal bond chaining of a chain (no boundary requirement). -/
def chainedIn : List (MPSTensor K) → Prop
  | [] => True
  | [_] => True
  | t :: ts => t.Dr = leftDim ts ∧ chainedIn ts

/-- Every site's right bond dimension is at most the row count of its
matricization (automatic for outputs of a thin QR sweep). -/
def thin (ts : List (MPSTensor K)) : Prop :=
  ∀ t ∈ ts, t.Dr ≤ t.d * t.Dl

/-- The bond dimension carried out of the sweep, starting from carry `k`. -/
def endK : ℕ → List (MPSTensor K) → ℕ
  | k, [] => k
  | k, t :: ts => endK (min (t.d * k) t.Dr) ts

/-- Index lists within the per-site ranges `ds`. -/
def inRangeIdx : List ℕ → List ℕ → Prop
  | [], [] => True
  | d :: ds, s :: σ => s < d ∧ inRangeIdx ds σ
  | _, _ => False

/-- Site equivalence: equal dimensions and equal in-range entries. -/
def EquivT (t t2 : MPSTensor K) : Prop :=
  t.d = t2.d ∧ t.Dl = t2.Dl ∧ t.Dr = t2.Dr ∧
    ∀ s, s < t.d → ∀ a, a < t.Dl → ∀ b, b < t.Dr → t.A s a b = t2.A s a b

/-- Pointwise site equivalence of two chains. -/
def EquivL : List (MPSTensor K) → List (MPSTensor K) → Prop
  | [], [] => True
  | t :: ts, t2 :: ts2 => EquivT t t2 ∧ EquivL ts ts2
  | _, _ => False

variable {F : Type} [LinearOrderedField F] [StarRing F] [TrivialStar F]

/-- Modelled from the spec (section 4.2): the contract of the thin QR
factorization used by orthonormalization — `M = Q · R` on the declared
`m × n` range, `Q` has orthonormal columns, `R` is upper triangular, and
(the standard normalization making the thin factorization unique, which the
spec's idempotence property presupposes) the diagonal of `R` is
nonnegative.  The factor count is `min m n`. -/
def QRSpec (m n : ℕ) (M Q R : ℕ → ℕ → F) : Prop :=
  (∀ i, i < m → ∀ j, j < n →
    M i j = ∑ l ∈ Finset.range (min m n), Q i l * R l j) ∧
  (∀ j, j < min m n → ∀ j2, j2 < min m n →
    (∑ i ∈ Finset.range m, star (Q i j) * Q i j2) = Imat j j2) ∧
  (∀ l, l < min m n → ∀ j, j < l → R l j = 0) ∧
  (∀ l, l < min m n → 0 ≤ R l l)

/-- Modelled from the spec: one run of the left-orthonormalization sweep
(pytenet's `MPS.orthonormalize` is not in the source tree).  `SweepFrom k R
ts qs r` relates the remaining chain `ts` (with incoming triangular carry
`R` of `k` rows) to the produced orthonormal site tensors `qs` and the
final 1×1 scalar `r`.  Each step checks the effective site tensor for a
degenerate bond before factorizing. -/
inductive SweepFrom :
    ℕ → (ℕ → ℕ → F) → List (MPSTensor F) → List (MPSTensor F) → F → Prop where
  | nil : ∀ (k : ℕ) (R : ℕ → ℕ → F), SweepFrom k R [] [] (R 0 0)
  | cons : ∀ (k : ℕ) (R : ℕ → ℕ → F) (t : MPSTensor F)
      (ts qs : List (MPSTensor F)) (Q R2 : ℕ → ℕ → F) (r : F),
      Nondeg (absorb R k t) →
      QRSpec (t.d * k) t.Dr (matOf (absorb R k t)) Q R2 →
      SweepFrom (min (t.d * k) t.Dr) R2 ts qs r →
      SweepFrom k R (t :: ts)
        (siteOf (absorb R k t) Q (min (t.d * k) t.Dr) :: qs) r

/-- A failed sweep: some step encounters a degenerate effective site
tensor (after earlier steps factorized successfully). -/
inductive SweepFails : ℕ → (ℕ → ℕ → F) → List (MPSTensor F) → Prop where
  | here : ∀ (k : ℕ) (R : ℕ → ℕ → F) (t : MPSTensor F) (ts : List (MPSTensor F)),
      ¬ Nondeg (absorb R k t) → SweepFails k R (t :: ts)
  | later : ∀ (k : ℕ) (R : ℕ → ℕ → F) (t : MPSTensor F)
      (ts : List (MPSTensor F)) (Q R2 : ℕ → ℕ → F),
      Nondeg (absorb R k t) →
      QRSpec (t.d * k) t.Dr (matOf (absorb R k t)) Q R2 →
      SweepFails (min (t.d * k) t.Dr) R2 ts →
      SweepFails k R (t :: ts)

/-- Modelled from the spec: the observable outcome of
`orthonormalize(mode=left)` on an MPS.  On success the site tensors are
replaced by the swept ones, the unit-modulus part r/|r| of the final 1×1
scalar is folded into the last tensor, and the previous 2-norm |r| is
returned.  On failure the call raises `DegenerateBondError` and — per the
propagation policy of spec section 7 — the buffered replacements are
discarded, leaving the MPS in its pre-call state. -/
inductive OrthoOutcome :
    List (MPSTensor F) → List (MPSTensor F) → Except TNError F → Prop where
  | success : ∀ (ts qs : List (MPSTensor F)) (r : F),
      SweepFrom 1 Imat ts qs r →
      OrthoOutcome ts (scaleLast (r / |r|) qs) (Except.ok |r|)
  | failure : ∀ ts : List (MPSTensor F),
      SweepFails 1 Imat ts →
      OrthoOutcome ts ts (Except.error TNError.degenerateBond)

/-! ## Concrete instances used in the closed-form corollaries -/

def wqd : List ℤ := [0, 0]

def wqD : List (List ℤ) := [[0], [0, 0], [0]]

def w4ts : List (MPSTensor ℚ) := (mpsConstruct wqd wqD 2 .zero).toOption.getD []

def w4chs : ℕ → List (OpChannel ℚ) := fun _ => [⟨0, 0, 1, fun _ _ => 1⟩]

def w4ws : List (MPOTensor ℚ) :=
  (mpoAssembly 2 wqd wqd wqD 2 w4chs).toOption.getD []

def w5qd : List ℤ := [0, 1]

def w5g : ℕ → ℕ → ℕ → ℕ → ℚ := fun _ _ _ _ => 1

def w5ts : List (MPSTensor ℚ) :=
  (mpsConstruct w5qd wqD 2 (.random w5g)).toOption.getD []

def w5tsz : List (MPSTensor ℚ) :=
  (mpsConstruct wqd wqD 2 (.random w5g)).toOption.getD []

def w5ws : List (MPOTensor ℚ) :=
  (mpoAssembly 2 w5qd wqd wqD 2 w4chs).toOption.getD []

def w7qD : List (List ℤ) :=
  [List.replicate 1 0, List.replicate 4 0, List.replicate 15 0,
    List.replicate 13 0, List.replicate 7 0, List.replicate 1 0]

def w7ts : List (MPSTensor ℚ) :=
  (mpsConstruct (List.replicate 3 0) w7qD 5 .zero).toOption.getD []

def w7qV : List (List ℤ) :=
  [List.replicate 1 0, List.replicate 4 0, List.replicate 4 0,
    List.replicate 4 0, List.replicate 4 0, List.replicate 1 0]

def w7ws : List (MPOTensor ℚ) :=
  (mpoAssembly 3 (List.replicate 3 0) (List.replicate 3 0) w7qV 5
    (fun _ => [])).toOption.getD []

def w8ts : List (MPSTensor ℚ) := [⟨1, 1, 1, fun _ _ _ => 1⟩]

def w1t : MPSTensor ℚ := ⟨2, 1, 1, fun s _ _ => (s + 1 : ℚ)⟩

def w1w : MPOTensor ℚ := ⟨2, 1, 1, fun s r _ _ => (s * 2 + r + 1 : ℚ)⟩

def wot1 : MPSTensor ℚ := ⟨1, 1, 1, fun _ _ _ => 2⟩

def wot2 : MPSTensor ℚ := ⟨1, 1, 1, fun _ _ _ => 3⟩

def woQ : ℕ → ℕ → ℚ := fun _ _ => 1

def woR1 : ℕ → ℕ → ℚ := fun _ _ => 2

def woR2 : ℕ → ℕ → ℚ := fun _ _ => 6

def wop1 : MPSTensor ℚ := siteOf (absorb Imat 1 wot1) woQ 1

def wop2 : MPSTensor ℚ := siteOf (absorb woR1 1 wot2) woQ 1

def woQs : List (MPSTensor ℚ) := [wop1, wop2]

def wou : ℚ := woR2 0 0 / |woR2 0 0|

def wop2s : MPSTensor ℚ := ⟨wop2.d, wop2.Dl, wop2.Dr, fun s a b => wou * wop2.A s a b⟩

def woQs2 : List (MPSTensor ℚ) :=
  [siteOf (absorb Imat 1 wop1) woQ 1, siteOf (absorb woQ 1 wop2s) woQ 1]

def wzero1 : MPSTensor ℚ := ⟨1, 1, 1, fun _ _ _ => 0⟩

/-! ## Shape of the dense representations -/

lemma configs_length (ds : List ℕ) : (configs ds).length = ds.prod := by
  induction ds with
  | nil => rfl
  | cons d ds ih =>
    rw [configs, List.length_flatMap]
    have : (List.length ∘ fun s => List.map (fun σ => s :: σ) (configs ds)) =
        fun _ => ds.prod := by
      funext s
      simp [ih]
    rw [this]
    simp [List.map_const', List.sum_replicate, smul_eq_mul]

lemma getD_map_range {α : Type} [Inhabited α] (f : ℕ → α) {L i : ℕ} (h : i < L) :
    ((List.range L).map f).getD i default = f i := by
  rw [List.getD_eq_getElem ((List.range L).map f) default (by simpa using h)]
  simp

lemma getD_zero {l : List ℤ} (h : ∀ q ∈ l, q = 0) (n : ℕ) : l.getD n 0 = 0 := by
  rcases lt_or_le n l.length with hn | hn
  · rw [List.getD_eq_getElem l 0 hn]
    exact h _ (List.getElem_mem hn)
  · exact List.getD_eq_default l 0 hn

lemma getD_list_zero {qD : List (List ℤ)} (h : ∀ v ∈ qD, ∀ q ∈ v, q = 0)
    (n : ℕ) : ∀ q ∈ qD.getD n [], q = 0 := by
  rcases lt_or_le n qD.length with hn | hn
  · rw [List.getD_eq_getElem qD [] hn]
    exact h _ (List.getElem_mem hn)
  · rw [List.getD_eq_default qD [] hn]
    intro q hq
    cases hq

lemma mpsConstruct_ok {qd : List ℤ} {qD : List (List ℤ)} {L : ℕ}
    {fill : MPSFill K} {ts : List (MPSTensor K)}
    (h : mpsConstruct qd qD L fill = .ok ts) :
    qD.length = L + 1 ∧ (qD.getD 0 []).length = 1 ∧ (qD.getD L []).length = 1 ∧
    ts = (List.range L).map
      (fun i => mkTensor (K := K) qd (qD.getD i []) (qD.getD (i + 1) []) fill i) := by
  unfold mpsConstruct at h
  split at h
  case isTrue h1 =>
    split at h
    case isTrue h2 =>
      injection h with h3
      exact ⟨h1, h2.1, h2.2, h3.symm⟩
    case isFalse h2 => exact Except.noConfusion h
  case isFalse h1 => exact Except.noConfusion h

lemma mpoAssembly_ok {d : ℕ} {qdOut qdIn : List ℤ} {qV : List (List ℤ)} {L : ℕ}
    {chs : ℕ → List (OpChannel K)} {ws : List (MPOTensor K)}
    (h : mpoAssembly d qdOut qdIn qV L chs = .ok ws) :
    qV.length = L + 1 ∧ (qV.getD 0 []).length = 1 ∧ (qV.getD L []).length = 1 ∧
    ws = (List.range L).map
      (fun i => mkMPOTensor (K := K) d qdOut qdIn (qV.getD i [])
        (qV.getD (i + 1) []) (chs i)) := by
  unfold mpoAssembly at h
  split at h
  case isTrue h1 =>
    split at h
    case isTrue h2 =>
      injection h with h3
      exact ⟨h1, h2.1, h2.2, h3.symm⟩
    case isFalse h2 => exact Except.noConfusion h
  case isFalse h1 => exact Except.noConfusion h

/-- Claim C4: every MPS or MPO produced by the constructors (explicit
zero/random fill, or the local-operator MPO assembly routine) satisfies
`A[i].bond_right_dim = A[i+1].bond_left_dim` for every adjacent pair, and
its leftmost and rightmost bond dimensions equal 1. -/
theorem constructed_bond_consistency :
    (∀ (qd : List ℤ) (qD : List (List ℤ)) (L : ℕ) (fill : MPSFill K)
        (ts : List (MPSTensor K)),
      mpsConstruct qd qD L fill = .ok ts → 1 ≤ L →
      (∀ i, i + 1 < ts.length →
        (ts.getD i default).Dr = (ts.getD (i + 1) default).Dl) ∧
      (ts.getD 0 default).Dl = 1 ∧ (ts.getD (ts.length - 1) default).Dr = 1) ∧
    (∀ (d : ℕ) (qdOut qdIn : List ℤ) (qV : List (List ℤ)) (L : ℕ)
        (chs : ℕ → List (OpChannel K)) (ws : List (MPOTensor K)),
      mpoAssembly d qdOut qdIn qV L chs = .ok ws → 1 ≤ L →
      (∀ i, i + 1 < ws.length →
        (ws.getD i default).Dr = (ws.getD (i + 1) default).Dl) ∧
      (ws.getD 0 default).Dl = 1 ∧ (ws.getD (ws.length - 1) default).Dr = 1) := by
  constructor
  · intro qd qD L fill ts h hL
    obtain ⟨h1, h2, h3, h4⟩ := mpsConstruct_ok h
    subst h4
    have hlen : ((List.range L).map
        (fun i => mkTensor (K := K) qd (qD.getD i []) (qD.getD (i + 1) []) fill i)).length
        = L := by simp
    refine ⟨?_, ?_, ?_⟩
    · intro i hi
      rw [hlen] at hi
      rw [getD_map_range _ (by omega), getD_map_range _ (by omega)]
      rfl
    · rw [getD_map_range _ (by omega)]
      exact h2
    · rw [hlen, getD_map_range _ (by omega)]
      show (qD.getD (L - 1 + 1) []).length = 1
      have : L - 1 + 1 = L := by omega
      rw [this]
      exact h3
  · intro d qdOut qdIn qV L chs ws h hL
    obtain ⟨h1, h2, h3, h4⟩ := mpoAssembly_ok h
    subst h4
    have hlen : ((List.range L).map
        (fun i => mkMPOTensor (K := K) d qdOut qdIn (qV.getD i [])
          (qV.getD (i + 1) []) (chs i))).length = L := by simp
    refine ⟨?_, ?_, ?_⟩
    · intro i hi
      rw [hlen] at hi
      rw [getD_map_range _ (by omega), getD_map_range _ (by omega)]
      rfl
    · rw [getD_map_range _ (by omega)]
      exact h2
    · rw [hlen, getD_map_range _ (by omega)]
      show (qV.getD (L - 1 + 1) []).length = 1
      have : L - 1 + 1 = L := by omega
      rw [this]
      exact h3

/-- Claim C5: in tensors generated under declared quantum numbers (random
MPS fill, or the MPO template assembly), every entry at a position violating
the charge-conservation equation is exactly 0; with all-zero quantum-number
vectors every position is permitted and the random fill is unconstrained. -/
theorem quantum_number_sparsity :
    (∀ (qd : List ℤ) (qD : List (List ℤ)) (L : ℕ) (g : ℕ → ℕ → ℕ → ℕ → K)
        (ts : List (MPSTensor K)),
      mpsConstruct qd qD L (.random g) = .ok ts →
      ∀ i, i < L → ∀ s a b,
        (¬ permitted qd (qD.getD i []) (qD.getD (i + 1) []) s a b →
          (ts.getD i default).A s a b = 0) ∧
        ((∀ q ∈ qd, q = 0) → (∀ v ∈ qD, ∀ q ∈ v, q = 0) →
          permitted qd (qD.getD i []) (qD.getD (i + 1) []) s a b ∧
          (ts.getD i default).A s a b = g i s a b)) ∧
    (∀ (d : ℕ) (qdOut qdIn : List ℤ) (qV : List (List ℤ)) (L : ℕ)
        (chs : ℕ → List (OpChannel K)) (ws : List (MPOTensor K)),
      mpoAssembly d qdOut qdIn qV L chs = .ok ws →
      ∀ i, i < L → ∀ s s2 a b,
        ¬ permittedO qdOut qdIn (qV.getD i []) (qV.getD (i + 1) []) s s2 a b →
          (ws.getD i default).W s s2 a b = 0) := by
  constructor
  · intro qd qD L g ts h i hi s a b
    obtain ⟨h1, h2, h3, h4⟩ := mpsConstruct_ok h
    subst h4
    rw [getD_map_range _ hi]
    constructor
    · intro hviol
      show (if permitted qd (qD.getD i []) (qD.getD (i + 1) []) s a b
        then g i s a b else 0) = 0
      rw [if_neg hviol]
    · intro hqd hqD
      have hperm : permitted qd (qD.getD i []) (qD.getD (i + 1) []) s a b := by
        show (qD.getD i []).getD a 0 + qd.getD s 0 = (qD.getD (i + 1) []).getD b 0
        rw [getD_zero (getD_list_zero hqD i), getD_zero hqd,
          getD_zero (getD_list_zero hqD (i + 1))]
        exact zero_add 0
      refine ⟨hperm, ?_⟩
      show (if permitted qd (qD.getD i []) (qD.getD (i + 1) []) s a b
        then g i s a b else 0) = g i s a b
      rw [if_pos hperm]
  · intro d qdOut qdIn qV L chs ws h i hi s s2 a b hviol
    obtain ⟨h1, h2, h3, h4⟩ := mpoAssembly_ok h
    subst h4
    rw [getD_map_range _ hi]
    show (if permittedO qdOut qdIn (qV.getD i []) (qV.getD (i + 1) []) s s2 a b
      then _ else 0) = 0
    rw [if_neg hviol]

/-- Claim C7: the dense vector of an MPS has length equal to the product of
the per-site physical dimensions, and the dense matrix of an MPO is square
of that size (e.g. 243 and 243 × 243 for d = 3, L = 5). -/
theorem as_vector_as_matrix_shape (ts : List (MPSTensor K))
    (ws : List (MPOTensor K)) :
    (as_vector_list ts).length = (physDims ts).prod ∧
    (as_matrix_list ws).length = (physDimsO ws).prod ∧
    ∀ row ∈ as_matrix_list ws, row.length = (physDimsO ws).prod := by
  refine ⟨?_, ?_, ?_⟩
  · simp [as_vector_list, configs_length]
  · simp [as_matrix_list, configs_length]
  · intro row hrow
    simp only [as_matrix_list, List.mem_map] at hrow
    obtain ⟨σ, _, hσ⟩ := hrow
    rw [← hσ]
    simp [configs_length]

/-- Claim C8: MPS construction fails with `DimensionMismatch` when the
number of bond quantum-number vectors differs from `nsites + 1`, and
`operator_average` fails with `DimensionMismatch` whenever the site counts
or any per-site physical dimension of MPS and MPO disagree. -/
theorem dimension_mismatch_errors :
    (∀ (qd : List ℤ) (qD : List (List ℤ)) (L : ℕ) (fill : MPSFill K),
      qD.length ≠ L + 1 →
      mpsConstruct qd qD L fill = .error .dimensionMismatch) ∧
    (∀ (ts : List (MPSTensor K)) (ws : List (MPOTensor K)),
      (ts.length ≠ ws.length ∨
        ∃ i, i < ts.length ∧ (ts.getD i default).d ≠ (ws.getD i default).d) →
      operator_average ts ws = .error .dimensionMismatch) := by
  constructor
  · intro qd qD L fill h
    unfold mpsConstruct
    rw [if_neg h]
  · intro ts ws h
    unfold operator_average
    rw [if_neg]
    intro heq
    rcases h with h | ⟨i, hi, hd⟩
    · exact h (by simpa using congrArg List.length heq)
    · apply hd
      have hlen : ts.length = ws.length := by simpa using congrArg List.length heq
      have h1 : (ts.map MPSTensor.d).getD i 0 = (ws.map MPOTensor.d).getD i 0 := by
        rw [heq]
      rw [List.getD_eq_getElem _ _ (by simpa using hi),
        List.getD_eq_getElem _ _ (by simp; omega)] at h1
      rw [List.getD_eq_getElem _ _ hi,
        List.getD_eq_getElem _ _ (show i < ws.length by omega)]
      simpa using h1

/-- Instantiation of claim C4 at a concrete random-free MPS and an assembled
MPO (d = 2, bond dimensions [1, 2, 1]). -/
theorem constructed_bond_consistency_check :
    ((w4ts.getD 0 default).Dr = (w4ts.getD 1 default).Dl ∧
      (w4ts.getD 0 default).Dl = 1 ∧
      (w4ts.getD (w4ts.length - 1) default).Dr = 1) ∧
    ((w4ws.getD 0 default).Dr = (w4ws.getD 1 default).Dl ∧
      (w4ws.getD 0 default).Dl = 1 ∧
      (w4ws.getD (w4ws.length - 1) default).Dr = 1) := by
  have h1 := (constructed_bond_consistency (K := ℚ)).1 wqd wqD 2 .zero w4ts rfl
    (by norm_num)
  have h2 := (constructed_bond_consistency (K := ℚ)).2 2 wqd wqd wqD 2 w4chs w4ws
    rfl (by norm_num)
  exact ⟨⟨h1.1 0 (by decide), h1.2.1, h1.2.2⟩, ⟨h2.1 0 (by decide), h2.2.1, h2.2.2⟩⟩

/-- Instantiation of claim C5: a forbidden entry of a randomly filled MPS
site is exactly 0; under all-zero quantum numbers the fill is unconstrained;
a forbidden MPO assembly entry is exactly 0. -/
theorem quantum_number_sparsity_check :
    (w5ts.getD 0 default).A 1 0 0 = 0 ∧
    (w5tsz.getD 0 default).A 0 0 0 = w5g 0 0 0 0 ∧
    (w5ws.getD 0 default).W 1 0 0 0 = 0 := by
  have h1 := ((quantum_number_sparsity (K := ℚ)).1 w5qd wqD 2 w5g w5ts rfl 0
    (by norm_num) 1 0 0).1 (by decide)
  have h2 := ((quantum_number_sparsity (K := ℚ)).1 wqd wqD 2 w5g w5tsz rfl 0
    (by norm_num) 0 0 0).2 (by decide) (by decide)
  have h3 := (quantum_number_sparsity (K := ℚ)).2 2 w5qd wqd wqD 2 w4chs w5ws rfl 0
    (by norm_num) 1 0 0 0 (by decide)
  exact ⟨h1, h2.2, h3⟩

/-- Instantiation of claim C7 at the spec's concrete scenario d = 3, L = 5:
the dense vector has length 243 and the dense matrix is 243 × 243. -/
theorem as_vector_as_matrix_shape_check :
    (as_vector_list w7ts).length = 243 ∧
    (as_matrix_list w7ws).length = 243 ∧
    ((as_matrix_list w7ws).getD 0 []).length = 243 := by
  have h := as_vector_as_matrix_shape w7ts w7ws
  refine ⟨h.1.trans (by decide), h.2.1.trans (by decide), ?_⟩
  have hpos : 0 < (as_matrix_list w7ws).length := by
    rw [h.2.1]
    decide
  rw [List.getD_eq_getElem _ _ hpos]
  exact (h.2.2 _ (List.getElem_mem hpos)).trans (by decide)

/-- Instantiation of claim C8 at concrete mismatched inputs. -/
theorem dimension_mismatch_errors_check :
    mpsConstruct (K := ℚ) wqd [[0]] 2 .zero = .error .dimensionMismatch ∧
    operator_average (K := ℚ) w8ts [] = .error .dimensionMismatch :=
  ⟨(dimension_mismatch_errors (K := ℚ)).1 wqd [[0]] 2 .zero (by decide),
    (dimension_mismatch_errors (K := ℚ)).2 w8ts [] (Or.inl (by decide))⟩

/-! ## Sum-manipulation helpers -/

lemma physDims_cons (t : MPSTensor K) (ts : List (MPSTensor K)) :
    physDims (t :: ts) = t.d :: physDims ts := rfl

lemma physDimsO_cons (w : MPOTensor K) (ws : List (MPOTensor K)) :
    physDimsO (w :: ws) = w.d :: physDimsO ws := rfl

lemma mpsAmp_nil (σ : List ℕ) (a b : ℕ) :
    mpsAmp ([] : List (MPSTensor K)) σ a b =
      if σ = [] ∧ a = b then 1 else 0 := rfl

lemma mpsAmp_cons (t : MPSTensor K) (ts : List (MPSTensor K)) (s : ℕ)
    (σ : List ℕ) (a b : ℕ) :
    mpsAmp (t :: ts) (s :: σ) a b =
      ∑ c ∈ Finset.range t.Dr, t.A s a c * mpsAmp ts σ c b := rfl

lemma mpsAmp_cons_nil (t : MPSTensor K) (ts : List (MPSTensor K)) (a b : ℕ) :
    mpsAmp (t :: ts) [] a b = 0 := rfl

lemma mpoAmp_nil (σ τ : List ℕ) (a b : ℕ) :
    mpoAmp ([] : List (MPOTensor K)) σ τ a b =
      if σ = [] ∧ τ = [] ∧ a = b then 1 else 0 := rfl

lemma mpoAmp_cons (w : MPOTensor K) (ws : List (MPOTensor K)) (s r : ℕ)
    (σ τ : List ℕ) (a b : ℕ) :
    mpoAmp (w :: ws) (s :: σ) (r :: τ) a b =
      ∑ c ∈ Finset.range w.Dr, w.W s r a c * mpoAmp ws σ τ c b := rfl

lemma sumIdx_nil (f : List ℕ → K) : sumIdx [] f = f [] := rfl

lemma sumIdx_cons (d : ℕ) (ds : List ℕ) (f : List ℕ → K) :
    sumIdx (d :: ds) f = ∑ s ∈ Finset.range d, sumIdx ds (fun σ => f (s :: σ)) := rfl

lemma sumIdx_congr {ds : List ℕ} {f g : List ℕ → K} (h : ∀ σ, f σ = g σ) :
    sumIdx ds f = sumIdx ds g :=
  congrArg (sumIdx ds) (funext h)

lemma sumIdx_sum_comm {α : Type} (ds : List ℕ) (s : Finset α)
    (g : α → List ℕ → K) :
    sumIdx ds (fun σ => ∑ x ∈ s, g x σ) = ∑ x ∈ s, sumIdx ds (fun σ => g x σ) := by
  induction ds generalizing g with
  | nil => rfl
  | cons d ds ih =>
    simp only [sumIdx_cons]
    calc ∑ i ∈ Finset.range d, sumIdx ds (fun σ => ∑ x ∈ s, g x (i :: σ))
        = ∑ i ∈ Finset.range d, ∑ x ∈ s, sumIdx ds (fun σ => g x (i :: σ)) :=
          Finset.sum_congr rfl fun i _ => ih _
      _ = ∑ x ∈ s, ∑ i ∈ Finset.range d, sumIdx ds (fun σ => g x (i :: σ)) :=
          Finset.sum_comm

lemma sumIdx_mul_left (c : K) (ds : List ℕ) (f : List ℕ → K) :
    sumIdx ds (fun σ => c * f σ) = c * sumIdx ds f := by
  induction ds generalizing f with
  | nil => rfl
  | cons d ds ih =>
    simp only [sumIdx_cons]
    rw [Finset.mul_sum]
    exact Finset.sum_congr rfl fun i _ => ih _

lemma sum_mul_sum_mul_sum (A B C : Finset ℕ) (f g h : ℕ → K) :
    (∑ x ∈ A, f x) * (∑ y ∈ B, g y) * (∑ z ∈ C, h z)
      = ∑ x ∈ A, ∑ y ∈ B, ∑ z ∈ C, f x * g y * h z := by
  rw [Finset.sum_mul_sum, Finset.sum_mul]
  refine Finset.sum_congr rfl fun x _ => ?_
  rw [Finset.sum_mul]
  refine Finset.sum_congr rfl fun y _ => ?_
  rw [Finset.mul_sum]

lemma sum_pull2 (s1 s2 s3 : Finset ℕ) (f : ℕ → ℕ → ℕ → K) :
    (∑ x ∈ s1, ∑ y ∈ s2, ∑ z ∈ s3, f x y z)
      = ∑ z ∈ s3, ∑ x ∈ s1, ∑ y ∈ s2, f x y z := by
  calc (∑ x ∈ s1, ∑ y ∈ s2, ∑ z ∈ s3, f x y z)
      = ∑ x ∈ s1, ∑ z ∈ s3, ∑ y ∈ s2, f x y z :=
        Finset.sum_congr rfl fun x _ => Finset.sum_comm
    _ = ∑ z ∈ s3, ∑ x ∈ s1, ∑ y ∈ s2, f x y z := Finset.sum_comm

lemma sum_pull3 (s1 s2 s3 s4 : Finset ℕ) (f : ℕ → ℕ → ℕ → ℕ → K) :
    (∑ x ∈ s1, ∑ y ∈ s2, ∑ z ∈ s3, ∑ v ∈ s4, f x y z v)
      = ∑ v ∈ s4, ∑ x ∈ s1, ∑ y ∈ s2, ∑ z ∈ s3, f x y z v := by
  calc (∑ x ∈ s1, ∑ y ∈ s2, ∑ z ∈ s3, ∑ v ∈ s4, f x y z v)
      = ∑ x ∈ s1, ∑ v ∈ s4, ∑ y ∈ s2, ∑ z ∈ s3, f x y z v :=
        Finset.sum_congr rfl fun x _ => sum_pull2 _ _ _ _
    _ = ∑ v ∈ s4, ∑ x ∈ s1, ∑ y ∈ s2, ∑ z ∈ s3, f x y z v := Finset.sum_comm

lemma sum_perm5 (s1 s2 s3 s4 s5 : Finset ℕ) (f : ℕ → ℕ → ℕ → ℕ → ℕ → K) :
    (∑ x1 ∈ s1, ∑ x2 ∈ s2, ∑ x3 ∈ s3, ∑ x4 ∈ s4, ∑ x5 ∈ s5, f x1 x2 x3 x4 x5)
      = ∑ x3 ∈ s3, ∑ x4 ∈ s4, ∑ x5 ∈ s5, ∑ x1 ∈ s1, ∑ x2 ∈ s2,
          f x1 x2 x3 x4 x5 := by
  calc (∑ x1 ∈ s1, ∑ x2 ∈ s2, ∑ x3 ∈ s3, ∑ x4 ∈ s4, ∑ x5 ∈ s5, f x1 x2 x3 x4 x5)
      = ∑ x3 ∈ s3, ∑ x1 ∈ s1, ∑ x2 ∈ s2, ∑ x4 ∈ s4, ∑ x5 ∈ s5,
          f x1 x2 x3 x4 x5 := sum_pull2 _ _ _ _
    _ = ∑ x3 ∈ s3, ∑ x4 ∈ s4, ∑ x1 ∈ s1, ∑ x2 ∈ s2, ∑ x5 ∈ s5,
          f x1 x2 x3 x4 x5 :=
        Finset.sum_congr rfl fun x3 _ => sum_pull2 _ _ _ _
    _ = ∑ x3 ∈ s3, ∑ x4 ∈ s4, ∑ x5 ∈ s5, ∑ x1 ∈ s1, ∑ x2 ∈ s2,
          f x1 x2 x3 x4 x5 :=
        Finset.sum_congr rfl fun x3 _ => Finset.sum_congr rfl fun x4 _ =>
          sum_pull2 _ _ _ _

lemma sum_perm6 (s1 s2 s3 s4 s5 s6 : Finset ℕ) (f : ℕ → ℕ → ℕ → ℕ → ℕ → ℕ → K) :
    (∑ x1 ∈ s1, ∑ x2 ∈ s2, ∑ x3 ∈ s3, ∑ x4 ∈ s4, ∑ x5 ∈ s5, ∑ x6 ∈ s6,
        f x1 x2 x3 x4 x5 x6)
      = ∑ x4 ∈ s4, ∑ x5 ∈ s5, ∑ x6 ∈ s6, ∑ x1 ∈ s1, ∑ x2 ∈ s2, ∑ x3 ∈ s3,
          f x1 x2 x3 x4 x5 x6 := by
  calc (∑ x1 ∈ s1, ∑ x2 ∈ s2, ∑ x3 ∈ s3, ∑ x4 ∈ s4, ∑ x5 ∈ s5, ∑ x6 ∈ s6,
          f x1 x2 x3 x4 x5 x6)
      = ∑ x4 ∈ s4, ∑ x1 ∈ s1, ∑ x2 ∈ s2, ∑ x3 ∈ s3, ∑ x5 ∈ s5, ∑ x6 ∈ s6,
          f x1 x2 x3 x4 x5 x6 := sum_pull3 _ _ _ _ _
    _ = ∑ x4 ∈ s4, ∑ x5 ∈ s5, ∑ x1 ∈ s1, ∑ x2 ∈ s2, ∑ x3 ∈ s3, ∑ x6 ∈ s6,
          f x1 x2 x3 x4 x5 x6 :=
        Finset.sum_congr rfl fun x4 _ => sum_pull3 _ _ _ _ _
    _ = ∑ x4 ∈ s4, ∑ x5 ∈ s5, ∑ x6 ∈ s6, ∑ x1 ∈ s1, ∑ x2 ∈ s2, ∑ x3 ∈ s3,
          f x1 x2 x3 x4 x5 x6 :=
        Finset.sum_congr rfl fun x4 _ => Finset.sum_congr rfl fun x5 _ =>
          sum_pull3 _ _ _ _ _

lemma sandwich_cons (t : MPSTensor K) (ts : List (MPSTensor K))
    (w : MPOTensor K) (ws : List (MPOTensor K))
    (hM : t.Dr = leftDim ts) (hO : w.Dr = leftDimO ws) (a b c : ℕ) :
    sandwich (t :: ts) (w :: ws) a b c =
      ∑ a2 ∈ Finset.range (leftDim ts), ∑ b2 ∈ Finset.range (leftDimO ws),
      ∑ c2 ∈ Finset.range (leftDim ts),
      ∑ sp ∈ Finset.range t.d, ∑ s ∈ Finset.range t.d,
        star (t.A sp a a2) * w.W sp s b b2 * t.A s c c2 *
          sandwich ts ws a2 b2 c2 := by
  simp only [sandwich, physDims_cons, sumIdx_cons, mpsAmp_cons, mpoAmp_cons,
    star_sum, star_mul', hM, hO, sum_mul_sum_mul_sum, sumIdx_sum_comm]
  rw [sum_perm5]
  refine Finset.sum_congr rfl fun a2 _ => Finset.sum_congr rfl fun b2 _ =>
    Finset.sum_congr rfl fun c2 _ => ?_
  rw [Finset.sum_comm]
  refine Finset.sum_congr rfl fun sp _ => Finset.sum_congr rfl fun s _ => ?_
  rw [← sumIdx_mul_left]
  refine sumIdx_congr fun σ => ?_
  rw [← sumIdx_mul_left]
  refine sumIdx_congr fun τ => ?_
  ring

lemma opAvgAux_cons (t : MPSTensor K) (ts : List (MPSTensor K))
    (w : MPOTensor K) (ws : List (MPOTensor K)) (E : ℕ → ℕ → ℕ → K) :
    opAvgAux (t :: ts) (w :: ws) E = opAvgAux ts ws (fun a2 b2 c2 =>
      ∑ a ∈ Finset.range t.Dl, ∑ b ∈ Finset.range w.Dl,
      ∑ c ∈ Finset.range t.Dl,
      ∑ sp ∈ Finset.range t.d, ∑ s ∈ Finset.range t.d,
        star (t.A sp a a2) * w.W sp s b b2 * t.A s c c2 * E a b c) := rfl

lemma opAvgAux_eq :
    ∀ (ts : List (MPSTensor K)) (ws : List (MPOTensor K)),
      ts.length = ws.length → rchain ts → rchainO ws →
      ∀ E : ℕ → ℕ → ℕ → K,
        opAvgAux ts ws E =
          ∑ a ∈ Finset.range (leftDim ts), ∑ b ∈ Finset.range (leftDimO ws),
          ∑ c ∈ Finset.range (leftDim ts), sandwich ts ws a b c * E a b c := by
  intro ts
  induction ts with
  | nil =>
    intro ws hlen hM hO E
    cases ws with
    | nil =>
      simp [opAvgAux, leftDim, leftDimO, sandwich, sumIdx, mpsAmp, mpoAmp,
        physDims, Finset.sum_range_one]
    | cons w ws => simp at hlen
  | cons t ts ih =>
    intro ws hlen hM hO E
    cases ws with
    | nil => simp at hlen
    | cons w ws =>
      rw [opAvgAux_cons, ih ws (by simpa using hlen) hM.2 hO.2]
      simp only [leftDim, leftDimO]
      simp only [sandwich_cons t ts w ws hM.1 hO.1, Finset.sum_mul,
        Finset.mul_sum]
      conv_rhs => rw [sum_perm6]
      refine Finset.sum_congr rfl fun a2 _ => Finset.sum_congr rfl fun b2 _ =>
        Finset.sum_congr rfl fun c2 _ => Finset.sum_congr rfl fun a _ =>
        Finset.sum_congr rfl fun b _ => Finset.sum_congr rfl fun c _ =>
        Finset.sum_congr rfl fun sp _ => Finset.sum_congr rfl fun s _ => ?_
      ring

/-- Claim C1: for every MPS and MPO with equal site counts and matching
per-site physical dimensions (and consistent bond dimensions with trivial
boundaries), `operator_average(psi, H)` equals the dense bilinear form
⟨as_vector psi, as_matrix H · as_vector psi⟩, the sum over all physical
configurations σ, τ of conj(ψ σ) · H σ τ · ψ τ. -/
theorem operator_average_eq_dense (ts : List (MPSTensor K))
    (ws : List (MPOTensor K))
    (hd : ts.map MPSTensor.d = ws.map MPOTensor.d)
    (hM : rchain ts) (hO : rchainO ws)
    (hL : leftDim ts = 1) (hLO : leftDimO ws = 1) :
    operator_average ts ws = .ok (sumIdx (physDims ts) fun σ =>
      sumIdx (physDims ts) fun τ =>
        star (as_vector ts σ) * as_matrix ws σ τ * as_vector ts τ) := by
  unfold operator_average
  rw [if_pos hd]
  congr 1
  have hlen : ts.length = ws.length := by
    simpa using congrArg List.length hd
  rw [opAvgAux_eq ts ws hlen hM hO deltaE, hL, hLO]
  simp [deltaE, Finset.sum_range_one, sandwich, as_vector, as_matrix]

/-- Instantiation of claim C1 at a concrete one-site MPS/MPO pair with
physical dimension 2. -/
theorem operator_average_eq_dense_check :
    operator_average [w1t] [w1w] = .ok (sumIdx (physDims [w1t]) fun σ =>
      sumIdx (physDims [w1t]) fun τ =>
        star (as_vector [w1t] σ) * as_matrix [w1w] σ τ * as_vector [w1t] τ) :=
  operator_average_eq_dense [w1t] [w1w] rfl ⟨rfl, trivial⟩ ⟨rfl, trivial⟩ rfl rfl

/-! ## Reindexing and delta-sum helpers -/

lemma sum_mul_range (d k : ℕ) (f : ℕ → K) :
    (∑ rr ∈ Finset.range (d * k), f rr)
      = ∑ s ∈ Finset.range d, ∑ a ∈ Finset.range k, f (s * k + a) := by
  induction d with
  | zero => simp
  | succ d ih =>
    have hdisj : Disjoint (Finset.range (d * k))
        ((Finset.range k).map (addLeftEmbedding (d * k))) := by
      rw [Finset.disjoint_left]
      intro x hx hx2
      simp only [Finset.mem_range] at hx
      simp only [Finset.mem_map, Finset.mem_range] at hx2
      obtain ⟨y, _, hy⟩ := hx2
      have hyx : d * k + y = x := hy
      omega
    rw [Nat.succ_mul, Finset.range_add_eq_union (d * k) k,
      Finset.sum_union hdisj, Finset.sum_map, Finset.sum_range_succ, ih]
    congr 1

lemma sum_Imat_mul (n l : ℕ) (hl : l < n) (v : ℕ → K) :
    (∑ m ∈ Finset.range n, Imat m l * v m) = v l := by
  rw [Finset.sum_eq_single l]
  · simp [Imat]
  · intro m _ hm
    simp [Imat, hm]
  · intro h
    exact absurd (Finset.mem_range.mpr hl) h

lemma sum_mul_Imat (n l : ℕ) (hl : l < n) (v : ℕ → K) :
    (∑ m ∈ Finset.range n, Imat l m * v m) = v l := by
  rw [Finset.sum_eq_single l]
  · simp [Imat]
  · intro m _ hm
    simp [Imat, Ne.symm hm]
  · intro h
    exact absurd (Finset.mem_range.mpr hl) h

lemma amp_delta_right (ts : List (MPSTensor K)) (t : MPSTensor K) (s a b : ℕ)
    (hb : b < t.Dr) (hnil : ts = []) :
    mpsAmp (t :: ts) [s] a b = t.A s a b := by
  subst hnil
  rw [mpsAmp_cons]
  calc (∑ c ∈ Finset.range t.Dr, t.A s a c * mpsAmp [] [] c b)
      = ∑ c ∈ Finset.range t.Dr, t.A s a c * Imat c b := by
        refine Finset.sum_congr rfl fun c _ => ?_
        rw [mpsAmp_nil]
        simp [Imat]
    _ = ∑ c ∈ Finset.range t.Dr, Imat c b * t.A s a c := by
        refine Finset.sum_congr rfl fun c _ => mul_comm _ _
    _ = t.A s a b := sum_Imat_mul _ _ hb _

lemma sum_perm4 (s1 s2 s3 s4 : Finset ℕ) (f : ℕ → ℕ → ℕ → ℕ → K) :
    (∑ x1 ∈ s1, ∑ x2 ∈ s2, ∑ x3 ∈ s3, ∑ x4 ∈ s4, f x1 x2 x3 x4)
      = ∑ x3 ∈ s3, ∑ x4 ∈ s4, ∑ x1 ∈ s1, ∑ x2 ∈ s2, f x1 x2 x3 x4 := by
  calc (∑ x1 ∈ s1, ∑ x2 ∈ s2, ∑ x3 ∈ s3, ∑ x4 ∈ s4, f x1 x2 x3 x4)
      = ∑ x3 ∈ s3, ∑ x1 ∈ s1, ∑ x2 ∈ s2, ∑ x4 ∈ s4, f x1 x2 x3 x4 :=
        sum_pull2 _ _ _ _
    _ = ∑ x3 ∈ s3, ∑ x4 ∈ s4, ∑ x1 ∈ s1, ∑ x2 ∈ s2, f x1 x2 x3 x4 :=
        Finset.sum_congr rfl fun x3 _ => sum_pull2 _ _ _ _

lemma sumIdx_congr_inRange : ∀ (ds : List ℕ) (f g : List ℕ → K),
    (∀ σ, inRangeIdx ds σ → f σ = g σ) → sumIdx ds f = sumIdx ds g := by
  intro ds
  induction ds with
  | nil =>
    intro f g h
    exact h [] trivial
  | cons d ds ih =>
    intro f g h
    simp only [sumIdx_cons]
    refine Finset.sum_congr rfl fun s hs => ?_
    exact ih _ _ fun σ hσ => h (s :: σ) ⟨Finset.mem_range.mp hs, hσ⟩

/-! ## Structural properties of sweep derivations -/

lemma rightDim_cons {x : MPSTensor K} {qs : List (MPSTensor K)} (h : qs ≠ []) :
    rightDim (x :: qs) = rightDim qs := by
  cases qs with
  | nil => exact absurd rfl h
  | cons q qs2 => rfl

lemma SF_len {k : ℕ} {R : ℕ → ℕ → F} {ts qs : List (MPSTensor F)} {r : F}
    (h : SweepFrom k R ts qs r) : qs.length = ts.length := by
  induction h with
  | nil k R => rfl
  | cons k R t ts qs Q R2 r hnd hqr hrec ih => simpa using ih

lemma SF_pos {k : ℕ} {R : ℕ → ℕ → F} {ts qs : List (MPSTensor F)} {r : F}
    (h : SweepFrom k R ts qs r) (hne : ts ≠ []) : 1 ≤ k := by
  cases h with
  | nil k R => exact absurd rfl hne
  | cons k R t ts qs Q R2 r hnd hqr hrec => exact hnd.2.1

lemma SF_endK {k : ℕ} {R : ℕ → ℕ → F} {ts qs : List (MPSTensor F)} {r : F}
    (h : SweepFrom k R ts qs r) :
    rchain ts → 1 ≤ k → ts ≠ [] → endK k ts = 1 := by
  induction h with
  | nil k R =>
    intro _ _ hne
    exact absurd rfl hne
  | cons k R t ts qs Q R2 r hnd hqr hrec ih =>
    intro hM hk _
    have hd1 : 1 ≤ t.d := hnd.1
    have hDr : 1 ≤ t.Dr := hnd.2.2.1
    have hdk : 1 ≤ t.d * k := Nat.one_le_iff_ne_zero.mpr
      (Nat.mul_ne_zero (by omega) (by omega))
    show endK (min (t.d * k) t.Dr) ts = 1
    rcases eq_or_ne ts [] with hts | hts
    · subst hts
      show min (t.d * k) t.Dr = 1
      have h1 : t.Dr = 1 := hM.1
      omega
    · exact ih hM.2 (le_min hdk hDr) hts

lemma SF_physDims {k : ℕ} {R : ℕ → ℕ → F} {ts qs : List (MPSTensor F)} {r : F}
    (h : SweepFrom k R ts qs r) : physDims qs = physDims ts := by
  induction h with
  | nil k R => rfl
  | cons k R t ts qs Q R2 r hnd hqr hrec ih =>
    show t.d :: physDims qs = t.d :: physDims ts
    rw [ih]

lemma SF_leftDim {k : ℕ} {R : ℕ → ℕ → F} {ts qs : List (MPSTensor F)} {r : F}
    (h : SweepFrom k R ts qs r) (hne : ts ≠ []) : leftDim qs = k := by
  cases h with
  | nil k R => exact absurd rfl hne
  | cons k R t ts qs Q R2 r hnd hqr hrec => rfl

lemma SF_chainedIn {k : ℕ} {R : ℕ → ℕ → F} {ts qs : List (MPSTensor F)} {r : F}
    (h : SweepFrom k R ts qs r) : chainedIn qs := by
  induction h with
  | nil k R => trivial
  | cons k R t ts qs Q R2 r hnd hqr hrec ih =>
    cases qs with
    | nil => trivial
    | cons q qs2 =>
      have hne : ts ≠ [] := by
        have hl := SF_len hrec
        intro hts
        subst hts
        simp at hl
      exact ⟨(SF_leftDim hrec hne).symm, ih⟩

lemma SF_rightDim {k : ℕ} {R : ℕ → ℕ → F} {ts qs : List (MPSTensor F)} {r : F}
    (h : SweepFrom k R ts qs r) : ts ≠ [] → rightDim qs = endK k ts := by
  induction h with
  | nil k R =>
    intro hne
    exact absurd rfl hne
  | cons k R t ts qs Q R2 r hnd hqr hrec ih =>
    intro _
    cases ts with
    | nil =>
      cases hrec
      rfl
    | cons t2 ts2 =>
      have hq : qs ≠ [] := by
        have hl := SF_len hrec
        intro h0
        subst h0
        simp at hl
      show rightDim (_ :: qs) = endK (min (t.d * k) t.Dr) (t2 :: ts2)
      rw [rightDim_cons hq]
      exact ih (by simp)

lemma SF_thin {k : ℕ} {R : ℕ → ℕ → F} {ts qs : List (MPSTensor F)} {r : F}
    (h : SweepFrom k R ts qs r) : thin qs := by
  induction h with
  | nil k R =>
    intro q hq
    cases hq
  | cons k R t ts qs Q R2 r hnd hqr hrec ih =>
    intro q hq
    rcases List.mem_cons.mp hq with h1 | h2
    · subst h1
      show min (t.d * k) t.Dr ≤ t.d * k
      exact min_le_left _ _
    · exact ih q h2

lemma SF_ortho {k : ℕ} {R : ℕ → ℕ → F} {ts qs : List (MPSTensor F)} {r : F}
    (h : SweepFrom k R ts qs r) : ∀ q ∈ qs, leftOrthonormal q := by
  induction h with
  | nil k R =>
    intro q hq
    cases hq
  | cons k R t ts qs Q R2 r hnd hqr hrec ih =>
    intro q hq
    rcases List.mem_cons.mp hq with h1 | h2
    · subst h1
      intro b hb b2 hb2
      show (∑ s ∈ Finset.range t.d, ∑ a ∈ Finset.range k,
        star (Q (s * k + a) b) * Q (s * k + a) b2) = Imat b b2
      calc (∑ s ∈ Finset.range t.d, ∑ a ∈ Finset.range k,
          star (Q (s * k + a) b) * Q (s * k + a) b2)
          = ∑ rr ∈ Finset.range (t.d * k), star (Q rr b) * Q rr b2 :=
            (sum_mul_range t.d k fun rr => star (Q rr b) * Q rr b2).symm
        _ = Imat b b2 := hqr.2.1 b hb b2 hb2
    · exact ih q h2

lemma SF_amp {k : ℕ} {R : ℕ → ℕ → F} {ts qs : List (MPSTensor F)} {r : F}
    (h : SweepFrom k R ts qs r) :
    rchain ts → endK k ts = 1 →
    ∀ σ, inRangeIdx (physDims ts) σ → ∀ a, a < k →
      (∑ c ∈ Finset.range (leftDim ts), R a c * mpsAmp ts σ c 0) =
        mpsAmp qs σ a 0 * r := by
  induction h with
  | nil k R =>
    intro _ hk σ hσ a ha
    have hk1 : k = 1 := hk
    subst hk1
    have ha0 : a = 0 := by omega
    subst ha0
    cases σ with
    | nil => simp [mpsAmp_nil, leftDim, Finset.sum_range_one]
    | cons s σ2 => exact False.elim hσ
  | cons k R t ts qs Q R2 r hnd hqr hrec ih =>
    intro hM hk σ hσ a ha
    have hd1 : 1 ≤ t.d := hnd.1
    have hk1 : 0 < k := hnd.2.1
    have hDr1 : 1 ≤ t.Dr := hnd.2.2.1
    cases σ with
    | nil => exact False.elim hσ
    | cons s σ2 =>
      obtain ⟨hs, hσ2⟩ := hσ
      have hrow : s * k + a < t.d * k := by
        have h1 : (s + 1) * k = s * k + k := by ring
        have h2 : (s + 1) * k ≤ t.d * k := Nat.mul_le_mul_right k hs
        omega
      have hdiv : (s * k + a) / k = s := by
        rw [add_comm, Nat.add_mul_div_right _ _ hk1, Nat.div_eq_of_lt ha,
          zero_add]
      have hmod : (s * k + a) % k = a := by
        rw [add_comm, Nat.add_mul_mod_self_right]
        exact Nat.mod_eq_of_lt ha
      calc (∑ c ∈ Finset.range (leftDim (t :: ts)),
              R a c * mpsAmp (t :: ts) (s :: σ2) c 0)
          = ∑ c ∈ Finset.range t.Dl, R a c *
              (∑ e ∈ Finset.range t.Dr, t.A s c e * mpsAmp ts σ2 e 0) := by
            simp only [mpsAmp_cons, leftDim]
        _ = ∑ c ∈ Finset.range t.Dl, ∑ e ∈ Finset.range t.Dr,
              R a c * (t.A s c e * mpsAmp ts σ2 e 0) :=
            Finset.sum_congr rfl fun c _ => Finset.mul_sum _ _ _
        _ = ∑ e ∈ Finset.range t.Dr, ∑ c ∈ Finset.range t.Dl,
              R a c * (t.A s c e * mpsAmp ts σ2 e 0) := Finset.sum_comm
        _ = ∑ e ∈ Finset.range t.Dr,
              (∑ c ∈ Finset.range t.Dl, R a c * t.A s c e) *
                mpsAmp ts σ2 e 0 := by
            refine Finset.sum_congr rfl fun e _ => ?_
            rw [Finset.sum_mul]
            exact Finset.sum_congr rfl fun c _ => by ring
        _ = ∑ e ∈ Finset.range t.Dr,
              matOf (absorb R k t) (s * k + a) e * mpsAmp ts σ2 e 0 := by
            refine Finset.sum_congr rfl fun e _ => ?_
            simp only [matOf, absorb, hdiv, hmod]
        _ = ∑ e ∈ Finset.range t.Dr,
              (∑ l ∈ Finset.range (min (t.d * k) t.Dr),
                Q (s * k + a) l * R2 l e) * mpsAmp ts σ2 e 0 := by
            refine Finset.sum_congr rfl fun e he => ?_
            rw [hqr.1 (s * k + a) hrow e (Finset.mem_range.mp he)]
        _ = ∑ e ∈ Finset.range t.Dr, ∑ l ∈ Finset.range (min (t.d * k) t.Dr),
              Q (s * k + a) l * (R2 l e * mpsAmp ts σ2 e 0) := by
            refine Finset.sum_congr rfl fun e _ => ?_
            rw [Finset.sum_mul]
            exact Finset.sum_congr rfl fun l _ => by ring
        _ = ∑ l ∈ Finset.range (min (t.d * k) t.Dr), ∑ e ∈ Finset.range t.Dr,
              Q (s * k + a) l * (R2 l e * mpsAmp ts σ2 e 0) := Finset.sum_comm
        _ = ∑ l ∈ Finset.range (min (t.d * k) t.Dr), Q (s * k + a) l *
              (∑ e ∈ Finset.range t.Dr, R2 l e * mpsAmp ts σ2 e 0) :=
            Finset.sum_congr rfl fun l _ => (Finset.mul_sum _ _ _).symm
        _ = ∑ l ∈ Finset.range (min (t.d * k) t.Dr), Q (s * k + a) l *
              (mpsAmp qs σ2 l 0 * r) := by
            refine Finset.sum_congr rfl fun l hl => ?_
            congr 1
            have hih := ih hM.2 hk σ2 hσ2 l (Finset.mem_range.mp hl)
            rw [← hM.1] at hih
            exact hih
        _ = (∑ l ∈ Finset.range (min (t.d * k) t.Dr), Q (s * k + a) l *
              mpsAmp qs σ2 l 0) * r := by
            rw [Finset.sum_mul]
            exact Finset.sum_congr rfl fun l _ => by ring
        _ = mpsAmp (siteOf (absorb R k t) Q (min (t.d * k) t.Dr) :: qs)
              (s :: σ2) a 0 * r := by
            congr 1

lemma gram_ortho : ∀ qs : List (MPSTensor F),
    (∀ q ∈ qs, leftOrthonormal q) → chainedIn qs →
    ∀ b, b < rightDim qs → ∀ b2, b2 < rightDim qs →
      sumIdx (physDims qs) (fun σ => ∑ a ∈ Finset.range (leftDim qs),
        star (mpsAmp qs σ a b) * mpsAmp qs σ a b2) = Imat b b2 := by
  intro qs
  induction qs with
  | nil =>
    intro _ _ b hb b2 hb2
    have hb' : b < 1 := hb
    have hb2' : b2 < 1 := hb2
    have hb0 : b = 0 := by omega
    have hb20 : b2 = 0 := by omega
    subst hb0
    subst hb20
    simp [sumIdx_nil, mpsAmp_nil, leftDim, Finset.sum_range_one, Imat, physDims]
  | cons q rest ih =>
    intro hortho hchain b hb b2 hb2
    have hQ := hortho q (List.mem_cons_self _ _)
    cases rest with
    | nil =>
      calc sumIdx (physDims [q]) (fun σ => ∑ a ∈ Finset.range (leftDim [q]),
            star (mpsAmp [q] σ a b) * mpsAmp [q] σ a b2)
          = ∑ s ∈ Finset.range q.d, ∑ a ∈ Finset.range q.Dl,
              star (mpsAmp [q] [s] a b) * mpsAmp [q] [s] a b2 := rfl
        _ = ∑ s ∈ Finset.range q.d, ∑ a ∈ Finset.range q.Dl,
              star (q.A s a b) * q.A s a b2 := by
            refine Finset.sum_congr rfl fun s _ =>
              Finset.sum_congr rfl fun a _ => ?_
            rw [amp_delta_right [] q s a b hb rfl,
              amp_delta_right [] q s a b2 hb2 rfl]
        _ = Imat b b2 := hQ b hb b2 hb2
    | cons q2 rest2 =>
      have hDr : q.Dr = leftDim (q2 :: rest2) := hchain.1
      have hchain2 : chainedIn (q2 :: rest2) := hchain.2
      have horthorest : ∀ x ∈ q2 :: rest2, leftOrthonormal x :=
        fun x hx => hortho x (List.mem_cons_of_mem _ hx)
      calc sumIdx (physDims (q :: q2 :: rest2))
            (fun σ => ∑ a ∈ Finset.range (leftDim (q :: q2 :: rest2)),
              star (mpsAmp (q :: q2 :: rest2) σ a b) *
                mpsAmp (q :: q2 :: rest2) σ a b2)
          = ∑ s ∈ Finset.range q.d, sumIdx (physDims (q2 :: rest2))
              (fun σ => ∑ a ∈ Finset.range q.Dl,
                star (∑ c ∈ Finset.range q.Dr,
                  q.A s a c * mpsAmp (q2 :: rest2) σ c b) *
                (∑ c2 ∈ Finset.range q.Dr,
                  q.A s a c2 * mpsAmp (q2 :: rest2) σ c2 b2)) := rfl
        _ = ∑ s ∈ Finset.range q.d, sumIdx (physDims (q2 :: rest2))
              (fun σ => ∑ a ∈ Finset.range q.Dl, ∑ c ∈ Finset.range q.Dr,
                ∑ c2 ∈ Finset.range q.Dr,
                  (star (q.A s a c) * q.A s a c2) *
                  (star (mpsAmp (q2 :: rest2) σ c b) *
                    mpsAmp (q2 :: rest2) σ c2 b2)) := by
            refine Finset.sum_congr rfl fun s _ => sumIdx_congr fun σ => ?_
            refine Finset.sum_congr rfl fun a _ => ?_
            rw [star_sum, Finset.sum_mul_sum]
            refine Finset.sum_congr rfl fun c _ =>
              Finset.sum_congr rfl fun c2 _ => ?_
            rw [star_mul']
            ring
        _ = ∑ s ∈ Finset.range q.d, ∑ a ∈ Finset.range q.Dl,
              ∑ c ∈ Finset.range q.Dr, ∑ c2 ∈ Finset.range q.Dr,
                sumIdx (physDims (q2 :: rest2)) (fun σ =>
                  (star (q.A s a c) * q.A s a c2) *
                  (star (mpsAmp (q2 :: rest2) σ c b) *
                    mpsAmp (q2 :: rest2) σ c2 b2)) := by
            refine Finset.sum_congr rfl fun s _ => ?_
            rw [sumIdx_sum_comm]
            refine Finset.sum_congr rfl fun a _ => ?_
            rw [sumIdx_sum_comm]
            refine Finset.sum_congr rfl fun c _ => ?_
            rw [sumIdx_sum_comm]
        _ = ∑ s ∈ Finset.range q.d, ∑ a ∈ Finset.range q.Dl,
              ∑ c ∈ Finset.range q.Dr, ∑ c2 ∈ Finset.range q.Dr,
                (star (q.A s a c) * q.A s a c2) *
                sumIdx (physDims (q2 :: rest2)) (fun σ =>
                  star (mpsAmp (q2 :: rest2) σ c b) *
                    mpsAmp (q2 :: rest2) σ c2 b2) := by
            refine Finset.sum_congr rfl fun s _ =>
              Finset.sum_congr rfl fun a _ => Finset.sum_congr rfl fun c _ =>
              Finset.sum_congr rfl fun c2 _ => ?_
            exact sumIdx_mul_left _ _ _
        _ = ∑ c ∈ Finset.range q.Dr, ∑ c2 ∈ Finset.range q.Dr,
              ∑ s ∈ Finset.range q.d, ∑ a ∈ Finset.range q.Dl,
                (star (q.A s a c) * q.A s a c2) *
                sumIdx (physDims (q2 :: rest2)) (fun σ =>
                  star (mpsAmp (q2 :: rest2) σ c b) *
                    mpsAmp (q2 :: rest2) σ c2 b2) := sum_perm4 _ _ _ _ _
        _ = ∑ c ∈ Finset.range q.Dr, ∑ c2 ∈ Finset.range q.Dr,
              Imat c c2 * sumIdx (physDims (q2 :: rest2)) (fun σ =>
                star (mpsAmp (q2 :: rest2) σ c b) *
                  mpsAmp (q2 :: rest2) σ c2 b2) := by
            refine Finset.sum_congr rfl fun c hc =>
              Finset.sum_congr rfl fun c2 hc2 => ?_
            have hcol : (∑ s ∈ Finset.range q.d, ∑ a ∈ Finset.range q.Dl,
                star (q.A s a c) * q.A s a c2) = Imat c c2 :=
              hQ c (Finset.mem_range.mp hc) c2 (Finset.mem_range.mp hc2)
            rw [← hcol, Finset.sum_mul]
            refine Finset.sum_congr rfl fun s _ => ?_
            rw [Finset.sum_mul]
        _ = ∑ c ∈ Finset.range q.Dr,
              sumIdx (physDims (q2 :: rest2)) (fun σ =>
                star (mpsAmp (q2 :: rest2) σ c b) *
                  mpsAmp (q2 :: rest2) σ c b2) := by
            refine Finset.sum_congr rfl fun c hc => ?_
            exact sum_mul_Imat _ _ (Finset.mem_range.mp hc) _
        _ = sumIdx (physDims (q2 :: rest2)) (fun σ =>
              ∑ c ∈ Finset.range (leftDim (q2 :: rest2)),
                star (mpsAmp (q2 :: rest2) σ c b) *
                  mpsAmp (q2 :: rest2) σ c b2) := by
            rw [hDr]
            exact (sumIdx_sum_comm _ _ _).symm
        _ = Imat b b2 := ih horthorest hchain2 b hb b2 hb2

lemma SF_r_ne {k : ℕ} {R : ℕ → ℕ → F} {ts qs : List (MPSTensor F)} {r : F}
    (h : SweepFrom k R ts qs r) : rchain ts → ts ≠ [] → r ≠ 0 := by
  induction h with
  | nil k R =>
    intro _ hne
    exact absurd rfl hne
  | cons k R t ts qs Q R2 r hnd hqr hrec ih =>
    intro hM _
    rcases eq_or_ne ts [] with hts | hts
    · subst hts
      cases hrec
      have hDr : t.Dr = 1 := hM.1
      obtain ⟨hd1, hk1, hDr1, s, hs, a, ha, bb, hbb, hA⟩ := hnd
      have hs' : s < t.d := hs
      have ha' : a < k := ha
      have hd1' : 1 ≤ t.d := hd1
      have hk1' : 0 < k := hk1
      have hbb' : bb < t.Dr := hbb
      have hbb0 : bb = 0 := by omega
      subst hbb0
      have hrow : s * k + a < t.d * k := by
        have h1 : (s + 1) * k = s * k + k := by ring
        have h2 : (s + 1) * k ≤ t.d * k := Nat.mul_le_mul_right k hs'
        omega
      have hdiv : (s * k + a) / k = s := by
        rw [add_comm, Nat.add_mul_div_right _ _ hk1', Nat.div_eq_of_lt ha',
          zero_add]
      have hmod : (s * k + a) % k = a := by
        rw [add_comm, Nat.add_mul_mod_self_right]
        exact Nat.mod_eq_of_lt ha'
      have hdk : 1 ≤ t.d * k := Nat.one_le_iff_ne_zero.mpr
        (Nat.mul_ne_zero (by omega) (by omega))
      have hmin : min (t.d * k) t.Dr = 1 := by
        rw [hDr]
        exact Nat.min_eq_right hdk
      intro hr0
      have hfact := hqr.1 (s * k + a) hrow 0 (by omega)
      rw [hmin, Finset.sum_range_one, hr0, mul_zero] at hfact
      apply hA
      have hmat : matOf (absorb R k t) (s * k + a) 0 =
          (absorb R k t).A s a 0 := by
        simp only [matOf, absorb, hdiv, hmod]
      rw [← hmat]
      exact hfact
    · exact ih hM.2 hts

lemma scaleLast_amp (u : K) : ∀ qs : List (MPSTensor K), qs ≠ [] →
    ∀ σ a b, mpsAmp (scaleLast u qs) σ a b = u * mpsAmp qs σ a b := by
  intro qs
  induction qs with
  | nil =>
    intro h
    exact absurd rfl h
  | cons q rest ih =>
    intro _ σ a b
    cases rest with
    | nil =>
      cases σ with
      | nil =>
        show (0 : K) = u * 0
        rw [mul_zero]
      | cons s σ2 =>
        show (∑ c ∈ Finset.range q.Dr, u * q.A s a c * mpsAmp [] σ2 c b)
          = u * ∑ c ∈ Finset.range q.Dr, q.A s a c * mpsAmp [] σ2 c b
        rw [Finset.mul_sum]
        exact Finset.sum_congr rfl fun c _ => by ring
    | cons q2 rest2 =>
      cases σ with
      | nil =>
        show (0 : K) = u * 0
        rw [mul_zero]
      | cons s σ2 =>
        show (∑ c ∈ Finset.range q.Dr,
            q.A s a c * mpsAmp (scaleLast u (q2 :: rest2)) σ2 c b)
          = u * ∑ c ∈ Finset.range q.Dr,
              q.A s a c * mpsAmp (q2 :: rest2) σ2 c b
        rw [Finset.mul_sum]
        refine Finset.sum_congr rfl fun c _ => ?_
        rw [ih (by simp) σ2 c b]
        ring

lemma scaleLast_physDims (u : K) : ∀ qs : List (MPSTensor K),
    physDims (scaleLast u qs) = physDims qs := by
  intro qs
  induction qs with
  | nil => rfl
  | cons q rest ih =>
    cases rest with
    | nil => rfl
    | cons q2 rest2 =>
      show q.d :: physDims (scaleLast u (q2 :: rest2)) = q.d :: physDims (q2 :: rest2)
      rw [ih]

lemma normSq_scaleLast (u : F) (qs : List (MPSTensor F)) (hne : qs ≠ []) :
    normSq (scaleLast u qs) = star u * u * normSq qs := by
  calc normSq (scaleLast u qs)
      = sumIdx (physDims qs) (fun σ =>
          star (mpsAmp (scaleLast u qs) σ 0 0) *
            mpsAmp (scaleLast u qs) σ 0 0) := by
        unfold normSq as_vector
        rw [scaleLast_physDims]
    _ = sumIdx (physDims qs) (fun σ => star u * u *
          (star (mpsAmp qs σ 0 0) * mpsAmp qs σ 0 0)) := by
        refine sumIdx_congr fun σ => ?_
        rw [scaleLast_amp u qs hne, star_mul']
        ring
    _ = star u * u * normSq qs := sumIdx_mul_left _ _ _

/-- Claim C2: `orthonormalize(mode=left)` returns the previous 2-norm of
the dense vector (the returned value is nonnegative and its square is the
squared 2-norm of the pre-call vector, which characterizes the 2-norm
exactly), and immediately afterwards the dense vector has 2-norm 1. -/
theorem orthonormalize_norm {ts post : List (MPSTensor F)} {nrm : F}
    (h : OrthoOutcome ts post (.ok nrm)) (hc : rchain ts)
    (hL : leftDim ts = 1) (hne : ts ≠ []) :
    0 ≤ nrm ∧ nrm * nrm = normSq ts ∧ normSq post = 1 := by
  cases h with
  | success qs r hsf =>
    have hek : endK 1 ts = 1 := SF_endK hsf hc (le_refl 1) hne
    have hqne : qs ≠ [] := by
      have hl := SF_len hsf
      intro h0
      subst h0
      exact hne (List.length_eq_zero.mp hl.symm)
    have hrne : r ≠ 0 := SF_r_ne hsf hc hne
    have hamp : ∀ σ, inRangeIdx (physDims ts) σ →
        mpsAmp ts σ 0 0 = mpsAmp qs σ 0 0 * r := by
      intro σ hσ
      have hstep := SF_amp hsf hc hek σ hσ 0 (by omega)
      rw [hL, Finset.sum_range_one] at hstep
      simpa [Imat] using hstep
    have hLqs : leftDim qs = 1 := SF_leftDim hsf hne
    have hRqs : rightDim qs = 1 := (SF_rightDim hsf hne).trans hek
    have hgram := gram_ortho qs (SF_ortho hsf) (SF_chainedIn hsf) 0
      (by rw [hRqs]; exact Nat.zero_lt_one) 0
      (by rw [hRqs]; exact Nat.zero_lt_one)
    rw [hLqs] at hgram
    simp only [Finset.sum_range_one] at hgram
    have hnormqs : normSq qs = 1 := hgram.trans (by simp [Imat])
    have hpd := SF_physDims hsf
    have hnorm_ts : normSq ts = star r * r * normSq qs := by
      calc normSq ts
          = sumIdx (physDims ts) (fun σ => star r * r *
              (star (mpsAmp qs σ 0 0) * mpsAmp qs σ 0 0)) := by
            refine sumIdx_congr_inRange _ _ _ fun σ hσ => ?_
            show star (mpsAmp ts σ 0 0) * mpsAmp ts σ 0 0 = _
            rw [hamp σ hσ, star_mul']
            ring
        _ = star r * r * sumIdx (physDims ts)
              (fun σ => star (mpsAmp qs σ 0 0) * mpsAmp qs σ 0 0) :=
            sumIdx_mul_left _ _ _
        _ = star r * r * normSq qs := by
            unfold normSq as_vector
            rw [hpd]
    refine ⟨abs_nonneg r, ?_, ?_⟩
    · rw [hnorm_ts, hnormqs, mul_one, star_trivial, abs_mul_abs_self]
    · rw [normSq_scaleLast _ _ hqne, hnormqs, mul_one, star_trivial,
        div_mul_div_comm, abs_mul_abs_self, div_self]
      exact mul_ne_zero hrne hrne

lemma scaleLast_length (u : K) : ∀ qs : List (MPSTensor K),
    (scaleLast u qs).length = qs.length := by
  intro qs
  induction qs with
  | nil => rfl
  | cons q rest ih =>
    cases rest with
    | nil => rfl
    | cons q2 rest2 =>
      show (scaleLast u (q2 :: rest2)).length + 1 = (q2 :: rest2).length + 1
      rw [ih]

lemma scaleLast_getD (u : K) : ∀ (qs : List (MPSTensor K)) (i : ℕ),
    i + 1 < qs.length →
    (scaleLast u qs).getD i default = qs.getD i default := by
  intro qs
  induction qs with
  | nil =>
    intro i h
    simp at h
  | cons q rest ih =>
    intro i h
    cases rest with
    | nil => simp at h
    | cons q2 rest2 =>
      cases i with
      | zero => rfl
      | succ i2 =>
        show (scaleLast u (q2 :: rest2)).getD i2 default
          = (q2 :: rest2).getD i2 default
        exact ih i2 (by simpa using h)

/-- Claim C3: after a successful `orthonormalize(mode=left)`, every site
tensor except the last satisfies the left-orthonormality condition —
contracting it with its own conjugate over the physical and left-bond
indices yields the identity over the right-bond index. -/
theorem orthonormalize_left_orthonormal {ts post : List (MPSTensor F)}
    {nrm : F} (h : OrthoOutcome ts post (.ok nrm)) :
    ∀ i, i + 1 < post.length → leftOrthonormal (post.getD i default) := by
  cases h with
  | success qs r hsf =>
    intro i hi
    rw [scaleLast_length] at hi
    rw [scaleLast_getD _ _ _ hi]
    have hlt : i < qs.length := by omega
    have hmem : qs.getD i default ∈ qs := by
      rw [List.getD_eq_getElem qs default hlt]
      exact List.getElem_mem hlt
    exact SF_ortho hsf _ hmem

/-- Claim C9: a failed `orthonormalize` leaves the MPS in its pre-call
state — by the buffered-commit discipline of spec section 7, no partial
replacement of site tensors is observable after a `DegenerateBondError`. -/
theorem orthonormalize_atomic {ts post : List (MPSTensor F)} {e : TNError}
    (h : OrthoOutcome ts post (.error e)) : post = ts := by
  cases h with
  | failure hfail => rfl

lemma SF_not_bad {k : ℕ} {R : ℕ → ℕ → F} {ts qs : List (MPSTensor F)} {r : F}
    (h : SweepFrom k R ts qs r) :
    ∀ i, i < ts.length → ¬ BadSite (ts.getD i default) := by
  induction h with
  | nil k R =>
    intro i hi
    simp at hi
  | cons k R t ts qs Q R2 r hnd hqr hrec ih =>
    intro i hi
    cases i with
    | zero =>
      intro hbad
      have hbad' : BadSite t := hbad
      obtain ⟨hd1, hk1, hDr1, s, hs, a, ha, bb, hbb, hA⟩ := hnd
      have hd1' : 1 ≤ t.d := hd1
      have hDr1' : 1 ≤ t.Dr := hDr1
      have hs' : s < t.d := hs
      have hbb' : bb < t.Dr := hbb
      rcases hbad' with h0 | h0 | h0
      · omega
      · omega
      · apply hA
        show (∑ c ∈ Finset.range t.Dl, R a c * t.A s c bb) = 0
        refine Finset.sum_eq_zero fun c hc => ?_
        rw [h0 s hs' c (Finset.mem_range.mp hc) bb hbb', mul_zero]
    | succ i2 => exact ih i2 (by simpa using hi)

/-- Claim C10: when the MPS contains a site tensor with a zero-dimensional
or fully-zero effective bond, `orthonormalize` cannot complete a sweep, and
every outcome of the call is the `DegenerateBondError` — it never silently
produces a zero tensor with undefined norm. -/
theorem orthonormalize_degenerate {ts post : List (MPSTensor F)}
    {res : Except TNError F} {i : ℕ}
    (hi : i < ts.length) (hbad : BadSite (ts.getD i default))
    (h : OrthoOutcome ts post res) :
    res = .error .degenerateBond := by
  cases h with
  | success qs r hsf => exact absurd hbad (SF_not_bad hsf i hi)
  | failure hfail => rfl

/-! ## Idempotence of the sweep on an already-orthonormal chain -/

lemma upperTri_ortho_id (n : ℕ) (R : ℕ → ℕ → F)
    (hupper : ∀ l, l < n → ∀ j, j < l → R l j = 0)
    (hortho : ∀ j, j < n → ∀ j2, j2 < n →
      (∑ l ∈ Finset.range n, star (R l j) * R l j2) = Imat j j2)
    (hdiag : ∀ l, l < n → 0 ≤ R l l) :
    ∀ j, j < n → ∀ l, l < n → R l j = Imat l j := by
  intro j
  induction j using Nat.strong_induction_on with
  | _ j ih =>
    intro hj l hl
    have hupcol : ∀ m, m < j → m < n → R m j = 0 := by
      intro m hmj hmn
      have h0 := hortho m hmn j hj
      have hIm : Imat m j = (0 : F) := by
        simp [Imat, Nat.ne_of_lt hmj]
      rw [hIm] at h0
      have hsum : (∑ l2 ∈ Finset.range n, star (R l2 m) * R l2 j) = R m j := by
        calc (∑ l2 ∈ Finset.range n, star (R l2 m) * R l2 j)
            = ∑ l2 ∈ Finset.range n, Imat l2 m * R l2 j := by
              refine Finset.sum_congr rfl fun l2 hl2 => ?_
              rw [ih m hmj hmn l2 (Finset.mem_range.mp hl2), star_trivial]
          _ = R m j := sum_Imat_mul n m hmn _
      rw [hsum] at h0
      exact h0
    rcases lt_trichotomy l j with hlt | heq | hgt
    · rw [hupcol l hlt hl]
      simp [Imat, Nat.ne_of_lt hlt]
    · subst heq
      have h1 := hortho l hj l hj
      have hIm : Imat l l = (1 : F) := by simp [Imat]
      rw [hIm] at h1
      have hsingle : (∑ l2 ∈ Finset.range n, star (R l2 l) * R l2 l)
          = star (R l l) * R l l := by
        refine Finset.sum_eq_single l (fun m hm hml => ?_)
          (fun hnot => absurd (Finset.mem_range.mpr hj) hnot)
        rcases lt_or_gt_of_ne hml with h2 | h2
        · rw [hupcol m h2 (Finset.mem_range.mp hm)]
          simp
        · rw [hupper m (Finset.mem_range.mp hm) l h2]
          simp
      rw [hsingle, star_trivial] at h1
      rcases mul_self_eq_one_iff.mp h1 with h2 | h2
      · rw [h2, hIm]
      · exfalso
        have h3 := hdiag l hj
        rw [h2] at h3
        linarith
    · rw [hupper l hl j hgt]
      simp [Imat, Nat.ne_of_gt hgt]

lemma qr_ortho_R {m n : ℕ} {M Q R2 : ℕ → ℕ → F} (hqr : QRSpec m n M Q R2)
    (hM : ∀ j, j < n → ∀ j2, j2 < n →
      (∑ i ∈ Finset.range m, star (M i j) * M i j2) = Imat j j2)
    (hnm : n ≤ m) :
    ∀ j, j < n → ∀ j2, j2 < n →
      (∑ l ∈ Finset.range n, star (R2 l j) * R2 l j2) = Imat j j2 := by
  intro j hj j2 hj2
  have hmin : min m n = n := Nat.min_eq_right hnm
  have key : (∑ i ∈ Finset.range m, star (M i j) * M i j2)
      = ∑ l ∈ Finset.range n, star (R2 l j) * R2 l j2 := by
    calc (∑ i ∈ Finset.range m, star (M i j) * M i j2)
        = ∑ i ∈ Finset.range m,
            star (∑ l ∈ Finset.range n, Q i l * R2 l j) *
              (∑ l2 ∈ Finset.range n, Q i l2 * R2 l2 j2) := by
          refine Finset.sum_congr rfl fun i hi => ?_
          rw [hqr.1 i (Finset.mem_range.mp hi) j hj,
            hqr.1 i (Finset.mem_range.mp hi) j2 hj2, hmin]
      _ = ∑ i ∈ Finset.range m, ∑ l ∈ Finset.range n, ∑ l2 ∈ Finset.range n,
            (star (R2 l j) * R2 l2 j2) * (star (Q i l) * Q i l2) := by
          refine Finset.sum_congr rfl fun i _ => ?_
          rw [star_sum, Finset.sum_mul_sum]
          refine Finset.sum_congr rfl fun l _ =>
            Finset.sum_congr rfl fun l2 _ => ?_
          rw [star_mul']
          ring
      _ = ∑ l ∈ Finset.range n, ∑ l2 ∈ Finset.range n,
            ∑ i ∈ Finset.range m,
            (star (R2 l j) * R2 l2 j2) * (star (Q i l) * Q i l2) := by
          rw [Finset.sum_comm]
          refine Finset.sum_congr rfl fun l _ => Finset.sum_comm
      _ = ∑ l ∈ Finset.range n, ∑ l2 ∈ Finset.range n,
            (star (R2 l j) * R2 l2 j2) * Imat l l2 := by
          refine Finset.sum_congr rfl fun l hl =>
            Finset.sum_congr rfl fun l2 hl2 => ?_
          rw [← Finset.mul_sum]
          congr 1
          have h2 := hqr.2.1 l (by rw [hmin]; exact Finset.mem_range.mp hl)
            l2 (by rw [hmin]; exact Finset.mem_range.mp hl2)
          exact h2
      _ = ∑ l ∈ Finset.range n, star (R2 l j) * R2 l j2 := by
          refine Finset.sum_congr rfl fun l hl => ?_
          calc (∑ l2 ∈ Finset.range n, star (R2 l j) * R2 l2 j2 * Imat l l2)
              = ∑ l2 ∈ Finset.range n, Imat l l2 *
                  (star (R2 l j) * R2 l2 j2) := by
                refine Finset.sum_congr rfl fun l2 _ => by ring
            _ = star (R2 l j) * R2 l j2 :=
                sum_mul_Imat n l (Finset.mem_range.mp hl) _
  rw [← key]
  exact hM j hj j2 hj2

lemma chainedIn_tail {t : MPSTensor K} {ts : List (MPSTensor K)}
    (h : chainedIn (t :: ts)) : chainedIn ts := by
  cases ts with
  | nil => trivial
  | cons t2 ts2 => exact h.2

lemma EquivT_refl (t : MPSTensor K) : EquivT t t :=
  ⟨rfl, rfl, rfl, fun _ _ _ _ _ _ => rfl⟩

lemma EquivT_trans {t1 t2 t3 : MPSTensor K} (h1 : EquivT t1 t2)
    (h2 : EquivT t2 t3) : EquivT t1 t3 := by
  obtain ⟨hd, hl, hr, he⟩ := h1
  obtain ⟨hd2, hl2, hr2, he2⟩ := h2
  refine ⟨hd.trans hd2, hl.trans hl2, hr.trans hr2, fun s hs a ha b hb => ?_⟩
  rw [he s hs a ha b hb, he2 s (hd ▸ hs) a (hl ▸ ha) b (hr ▸ hb)]

lemma EquivL_trans : ∀ {l1 l2 l3 : List (MPSTensor K)},
    EquivL l1 l2 → EquivL l2 l3 → EquivL l1 l3 := by
  intro l1
  induction l1 with
  | nil =>
    intro l2 l3 h1 h2
    cases l2 with
    | nil =>
      cases l3 with
      | nil => trivial
      | cons x xs => exact False.elim h2
    | cons x xs => exact False.elim h1
  | cons t ts ih =>
    intro l2 l3 h1 h2
    cases l2 with
    | nil => exact False.elim h1
    | cons x xs =>
      cases l3 with
      | nil => exact False.elim h2
      | cons y ys => exact ⟨EquivT_trans h1.1 h2.1, ih h1.2 h2.2⟩

lemma scaleLast_one_equiv : ∀ qs : List (MPSTensor K),
    EquivL (scaleLast 1 qs) qs := by
  intro qs
  induction qs with
  | nil => trivial
  | cons q rest ih =>
    cases rest with
    | nil =>
      refine ⟨⟨rfl, rfl, rfl, fun s _ a _ b _ => ?_⟩, trivial⟩
      show 1 * q.A s a b = q.A s a b
      rw [one_mul]
    | cons q2 rest2 => exact ⟨EquivT_refl q, ih⟩

lemma scaleLast_ortho (u : K) (hu : star u * u = 1) :
    ∀ qs : List (MPSTensor K), (∀ q ∈ qs, leftOrthonormal q) →
    ∀ q ∈ scaleLast u qs, leftOrthonormal q := by
  intro qs
  induction qs with
  | nil =>
    intro _ q hq
    cases hq
  | cons x rest ih =>
    intro hortho q hq
    cases rest with
    | nil =>
      rcases List.mem_cons.mp hq with h1 | h1
      · subst h1
        intro b hb b2 hb2
        have hx := hortho x (List.mem_cons_self _ _)
        show (∑ s ∈ Finset.range x.d, ∑ a ∈ Finset.range x.Dl,
          star (u * x.A s a b) * (u * x.A s a b2)) = Imat b b2
        calc (∑ s ∈ Finset.range x.d, ∑ a ∈ Finset.range x.Dl,
            star (u * x.A s a b) * (u * x.A s a b2))
            = ∑ s ∈ Finset.range x.d, ∑ a ∈ Finset.range x.Dl,
                (star u * u) * (star (x.A s a b) * x.A s a b2) := by
              refine Finset.sum_congr rfl fun s _ =>
                Finset.sum_congr rfl fun a _ => ?_
              rw [star_mul']
              ring
          _ = ∑ s ∈ Finset.range x.d, ∑ a ∈ Finset.range x.Dl,
                star (x.A s a b) * x.A s a b2 := by
              refine Finset.sum_congr rfl fun s _ =>
                Finset.sum_congr rfl fun a _ => ?_
              rw [hu, one_mul]
          _ = Imat b b2 := hx b hb b2 hb2
      · cases h1
    | cons x2 rest2 =>
      rcases List.mem_cons.mp hq with h1 | h1
      · subst h1
        exact hortho q (List.mem_cons_self _ _)
      · exact ih (fun y hy => hortho y (List.mem_cons_of_mem _ hy)) q h1

lemma scaleLast_leftDim (u : K) (qs : List (MPSTensor K)) :
    leftDim (scaleLast u qs) = leftDim qs := by
  cases qs with
  | nil => rfl
  | cons q rest =>
    cases rest with
    | nil => rfl
    | cons q2 rest2 => rfl

lemma scaleLast_rightDim (u : K) : ∀ qs : List (MPSTensor K),
    rightDim (scaleLast u qs) = rightDim qs := by
  intro qs
  induction qs with
  | nil => rfl
  | cons q rest ih =>
    cases rest with
    | nil => rfl
    | cons q2 rest2 =>
      have h2 : scaleLast u (q2 :: rest2) ≠ [] := by
        intro h0
        have hlen := scaleLast_length u (q2 :: rest2)
        rw [h0] at hlen
        simp at hlen
      have h1 : scaleLast u (q :: q2 :: rest2)
          = q :: scaleLast u (q2 :: rest2) := rfl
      rw [h1, rightDim_cons h2, ih,
        rightDim_cons (show (q2 :: rest2 : List (MPSTensor K)) ≠ [] by simp)]

lemma scaleLast_chainedIn (u : K) : ∀ qs : List (MPSTensor K),
    chainedIn qs → chainedIn (scaleLast u qs) := by
  intro qs
  induction qs with
  | nil => intro h; trivial
  | cons q rest ih =>
    intro h
    cases rest with
    | nil => trivial
    | cons q2 rest2 =>
      have h1 : scaleLast u (q :: q2 :: rest2)
          = q :: scaleLast u (q2 :: rest2) := rfl
      rw [h1]
      have h2 : scaleLast u (q2 :: rest2) ≠ [] := by
        intro h0
        have := scaleLast_length u (q2 :: rest2)
        rw [h0] at this
        simp at this
      cases hsc : scaleLast u (q2 :: rest2) with
      | nil => exact absurd hsc h2
      | cons y ys =>
        refine ⟨?_, ?_⟩
        · have hld : leftDim (y :: ys) = leftDim (q2 :: rest2) := by
            rw [← hsc]
            exact scaleLast_leftDim u (q2 :: rest2)
          rw [hld]
          exact h.1
        · have := ih h.2
          rw [hsc] at this
          exact this

lemma scaleLast_thin (u : K) : ∀ qs : List (MPSTensor K),
    thin qs → thin (scaleLast u qs) := by
  intro qs
  induction qs with
  | nil =>
    intro _ q hq
    cases hq
  | cons x rest ih =>
    intro hthin q hq
    cases rest with
    | nil =>
      rcases List.mem_cons.mp hq with h1 | h1
      · subst h1
        exact hthin x (List.mem_cons_self _ _)
      · cases h1
    | cons x2 rest2 =>
      rcases List.mem_cons.mp hq with h1 | h1
      · subst h1
        exact hthin q (List.mem_cons_self _ _)
      · exact ih (fun y hy => hthin y (List.mem_cons_of_mem _ hy)) q h1

lemma SF_id {k : ℕ} {R : ℕ → ℕ → F} {qs qs2 : List (MPSTensor F)} {r2 : F}
    (h : SweepFrom k R qs qs2 r2) :
    (∀ q ∈ qs, leftOrthonormal q) → chainedIn qs → thin qs →
    1 ≤ k → (qs ≠ [] → k = leftDim qs) → 1 ≤ rightDim qs →
    (∀ a, a < k → ∀ c, c < k → R a c = Imat a c) →
    EquivL qs2 qs ∧ r2 = 1 := by
  induction h with
  | nil k R =>
    intro _ _ _ hk _ _ hR
    refine ⟨trivial, ?_⟩
    rw [hR 0 hk 0 hk]
    simp [Imat]
  | cons k R t ts qs Q R2 r hnd hqr hrec ih =>
    intro hortho hchain hthin hk hkL hrd hR
    have hkL' : k = t.Dl := hkL (by simp)
    have htOrtho : leftOrthonormal t := hortho t (List.mem_cons_self _ _)
    have htThin : t.Dr ≤ t.d * t.Dl := hthin t (List.mem_cons_self _ _)
    have htThin2 : t.Dr ≤ t.d * k := by
      rw [hkL']
      exact htThin
    have hkpos : 0 < k := hk
    have habs : ∀ s a b, a < k → (absorb R k t).A s a b = t.A s a b := by
      intro s a b ha
      show (∑ c ∈ Finset.range t.Dl, R a c * t.A s c b) = t.A s a b
      calc (∑ c ∈ Finset.range t.Dl, R a c * t.A s c b)
          = ∑ c ∈ Finset.range t.Dl, Imat a c * t.A s c b := by
            refine Finset.sum_congr rfl fun c hc => ?_
            rw [hR a ha c (by rw [hkL']; exact Finset.mem_range.mp hc)]
        _ = t.A s a b := sum_mul_Imat t.Dl a (by rw [← hkL']; exact ha) _
    have hdm : ∀ s a, a < k → (s * k + a) / k = s ∧ (s * k + a) % k = a := by
      intro s a ha
      constructor
      · rw [add_comm, Nat.add_mul_div_right _ _ hkpos, Nat.div_eq_of_lt ha,
          zero_add]
      · rw [add_comm, Nat.add_mul_mod_self_right]
        exact Nat.mod_eq_of_lt ha
    have hmA : ∀ s a b, a < k → matOf (absorb R k t) (s * k + a) b
        = t.A s a b := by
      intro s a b ha
      obtain ⟨hdiv, hmod⟩ := hdm s a ha
      have h1 : matOf (absorb R k t) (s * k + a) b
          = (absorb R k t).A ((s * k + a) / k) ((s * k + a) % k) b := rfl
      rw [h1, hdiv, hmod]
      exact habs s a b ha
    have hMortho : ∀ j, j < t.Dr → ∀ j2, j2 < t.Dr →
        (∑ i ∈ Finset.range (t.d * k), star (matOf (absorb R k t) i j) *
          matOf (absorb R k t) i j2) = Imat j j2 := by
      intro j hj j2 hj2
      calc (∑ i ∈ Finset.range (t.d * k), star (matOf (absorb R k t) i j) *
            matOf (absorb R k t) i j2)
          = ∑ s ∈ Finset.range t.d, ∑ a ∈ Finset.range k,
              star (matOf (absorb R k t) (s * k + a) j) *
                matOf (absorb R k t) (s * k + a) j2 :=
            sum_mul_range t.d k _
        _ = ∑ s ∈ Finset.range t.d, ∑ a ∈ Finset.range k,
              star (t.A s a j) * t.A s a j2 := by
            refine Finset.sum_congr rfl fun s _ =>
              Finset.sum_congr rfl fun a ha => ?_
            rw [hmA s a j (Finset.mem_range.mp ha),
              hmA s a j2 (Finset.mem_range.mp ha)]
        _ = Imat j j2 := by
            rw [hkL']
            exact htOrtho j hj j2 hj2
    have hR2ortho := qr_ortho_R hqr hMortho htThin2
    have hmin_eq : min (t.d * k) t.Dr = t.Dr := Nat.min_eq_right htThin2
    have hupper : ∀ l, l < t.Dr → ∀ j, j < l → R2 l j = 0 := by
      intro l hl j hj
      exact hqr.2.2.1 l (by rw [hmin_eq]; exact hl) j hj
    have hdiag : ∀ l, l < t.Dr → 0 ≤ R2 l l := by
      intro l hl
      exact hqr.2.2.2 l (by rw [hmin_eq]; exact hl)
    have hR2id := upperTri_ortho_id t.Dr R2 hupper hR2ortho hdiag
    have hQM : ∀ i, i < t.d * k → ∀ j, j < t.Dr →
        Q i j = matOf (absorb R k t) i j := by
      intro i hi j hj
      have hfact := hqr.1 i hi j hj
      rw [hmin_eq] at hfact
      rw [hfact]
      refine (?_ : (∑ l ∈ Finset.range t.Dr, Q i l * R2 l j) = Q i j).symm
      calc (∑ l ∈ Finset.range t.Dr, Q i l * R2 l j)
          = ∑ l ∈ Finset.range t.Dr, Imat l j * Q i l := by
            refine Finset.sum_congr rfl fun l hl => ?_
            rw [hR2id j hj l (Finset.mem_range.mp hl)]
            ring
        _ = Q i j := sum_Imat_mul t.Dr j hj _
    have hhead : EquivT (siteOf (absorb R k t) Q (min (t.d * k) t.Dr)) t := by
      refine ⟨rfl, hkL', hmin_eq, ?_⟩
      intro s hs a ha b hb
      have hs' : s < t.d := hs
      have ha' : a < k := ha
      have hb' : b < t.Dr := by
        have hb2 : b < min (t.d * k) t.Dr := hb
        omega
      have hrow : s * k + a < t.d * k := by
        have h1 : (s + 1) * k = s * k + k := by ring
        have h2 : (s + 1) * k ≤ t.d * k := Nat.mul_le_mul_right k hs'
        omega
      show Q (s * k + a) b = t.A s a b
      rw [hQM (s * k + a) hrow b hb']
      exact hmA s a b ha'
    rcases eq_or_ne ts [] with hts | hts
    · subst hts
      cases hrec
      refine ⟨⟨hhead, trivial⟩, ?_⟩
      have hDr1 : 0 < t.Dr := hrd
      rw [hR2id 0 hDr1 0 hDr1]
      simp [Imat]
    · have hDr_eq : t.Dr = leftDim ts := by
        cases ts with
        | nil => exact absurd rfl hts
        | cons t2 ts2 => exact hchain.1
      have hk2pos : 1 ≤ min (t.d * k) t.Dr := SF_pos hrec hts
      have ihres := ih (fun q hq => hortho q (List.mem_cons_of_mem _ hq))
        (chainedIn_tail hchain)
        (fun q hq => hthin q (List.mem_cons_of_mem _ hq))
        hk2pos
        (fun _ => by rw [hmin_eq, hDr_eq])
        (by rw [← rightDim_cons hts]; exact hrd)
        (fun a ha c hc2 => by
          rw [hmin_eq] at ha hc2
          exact hR2id c hc2 a ha)
      exact ⟨⟨hhead, ihres.1⟩, ihres.2⟩

/-- Claim C6: calling `orthonormalize(mode=left)` twice in a row returns 1
from the second call, and the second call leaves every site tensor
unchanged (hence in particular unchanged up to a global phase). -/
theorem orthonormalize_idempotent {ts post1 post2 : List (MPSTensor F)}
    {n1 n2 : F} (h1 : OrthoOutcome ts post1 (.ok n1))
    (h2 : OrthoOutcome post1 post2 (.ok n2))
    (hc : rchain ts) (hne : ts ≠ []) :
    n2 = 1 ∧ EquivL post2 post1 := by
  cases h1 with
  | success qs r hsf =>
    have hrne := SF_r_ne hsf hc hne
    have hqne : qs ≠ [] := by
      have hl := SF_len hsf
      intro h0
      subst h0
      exact hne (List.length_eq_zero.mp hl.symm)
    have hu : star (r / |r|) * (r / |r|) = 1 := by
      rw [star_trivial, div_mul_div_comm, abs_mul_abs_self,
        div_self (mul_ne_zero hrne hrne)]
    have hek : endK 1 ts = 1 := SF_endK hsf hc (le_refl 1) hne
    have hortho1 : ∀ q ∈ scaleLast (r / |r|) qs, leftOrthonormal q :=
      scaleLast_ortho _ hu qs (SF_ortho hsf)
    have hchain1 : chainedIn (scaleLast (r / |r|) qs) :=
      scaleLast_chainedIn _ qs (SF_chainedIn hsf)
    have hthin1 : thin (scaleLast (r / |r|) qs) :=
      scaleLast_thin _ qs (SF_thin hsf)
    have hldim1 : leftDim (scaleLast (r / |r|) qs) = 1 := by
      rw [scaleLast_leftDim]
      exact SF_leftDim hsf hne
    have hrdim1 : rightDim (scaleLast (r / |r|) qs) = 1 := by
      rw [scaleLast_rightDim]
      exact (SF_rightDim hsf hne).trans hek
    cases h2 with
    | success qs2 r2 hsf2 =>
      obtain ⟨hequiv, hr2⟩ := SF_id hsf2 hortho1 hchain1 hthin1 (le_refl 1)
        (fun _ => hldim1.symm) hrdim1.ge (fun a _ c _ => rfl)
      refine ⟨?_, ?_⟩
      · rw [hr2, abs_one]
      · have hu2 : r2 / |r2| = 1 := by
          rw [hr2, abs_one, div_one]
        rw [hu2]
        exact EquivL_trans (scaleLast_one_equiv qs2) hequiv

/-! ## Concrete sweep derivations over ℚ -/

lemma wou_eq : wou = 1 := by
  show (6 : ℚ) / |(6 : ℚ)| = 1
  rw [abs_of_pos (by norm_num : (0 : ℚ) < 6)]
  norm_num

lemma nondeg_one (t : MPSTensor ℚ) (h1 : t.d = 1) (h2 : t.Dl = 1)
    (h3 : t.Dr = 1) (h4 : t.A 0 0 0 ≠ 0) : Nondeg t :=
  ⟨by omega, by omega, by omega, 0, by omega, 0, by omega, 0, by omega, h4⟩

lemma qrspec_one (M Q R : ℕ → ℕ → ℚ) (hQ : Q 0 0 = 1) (hR0 : 0 ≤ R 0 0)
    (hM : M 0 0 = Q 0 0 * R 0 0) : QRSpec 1 1 M Q R := by
  refine ⟨?_, ?_, ?_, ?_⟩
  · intro i hi j hj
    have hi0 : i = 0 := Nat.lt_one_iff.mp hi
    have hj0 : j = 0 := Nat.lt_one_iff.mp hj
    subst hi0
    subst hj0
    calc M 0 0 = Q 0 0 * R 0 0 := hM
      _ = ∑ l ∈ Finset.range (min 1 1), Q 0 l * R l 0 := by
          rw [show min 1 1 = 1 from rfl, Finset.sum_range_one]
  · intro j hj j2 hj2
    have hj' : j < 1 := hj
    have hj2' : j2 < 1 := hj2
    have hj0 : j = 0 := Nat.lt_one_iff.mp hj'
    have hj20 : j2 = 0 := Nat.lt_one_iff.mp hj2'
    subst hj0
    subst hj20
    rw [Finset.sum_range_one, star_trivial, hQ]
    simp [Imat]
  · intro l hl j hj
    have hl' : l < 1 := hl
    omega
  · intro l hl
    have hl' : l < 1 := hl
    have hl0 : l = 0 := Nat.lt_one_iff.mp hl'
    subst hl0
    exact hR0

lemma woSweep : SweepFrom 1 Imat [wot1, wot2] woQs (woR2 0 0) := by
  have habs1 : (absorb Imat 1 wot1).A 0 0 0 = 2 := by
    show (∑ c ∈ Finset.range 1, Imat 0 c * wot1.A 0 c 0) = 2
    rw [Finset.sum_range_one]
    simp [Imat, wot1]
  have habs2 : (absorb woR1 1 wot2).A 0 0 0 = 6 := by
    show (∑ c ∈ Finset.range 1, woR1 0 c * wot2.A 0 c 0) = 6
    rw [Finset.sum_range_one]
    norm_num [woR1, wot2]
  refine SweepFrom.cons 1 Imat wot1 [wot2] [wop2] woQ woR1 (woR2 0 0) ?_ ?_ ?_
  · exact nondeg_one _ rfl rfl rfl (by rw [habs1]; norm_num)
  · refine qrspec_one _ _ _ rfl (by norm_num [woR1]) ?_
    show (absorb Imat 1 wot1).A 0 0 0 = woQ 0 0 * woR1 0 0
    rw [habs1]
    norm_num [woQ, woR1]
  · refine SweepFrom.cons _ woR1 wot2 [] [] woQ woR2 (woR2 0 0) ?_ ?_ ?_
    · refine nondeg_one _ rfl rfl rfl ?_
      show (absorb woR1 1 wot2).A 0 0 0 ≠ 0
      rw [habs2]
      norm_num
    · refine qrspec_one _ _ _ rfl (by norm_num [woR2]) ?_
      show (absorb woR1 1 wot2).A 0 0 0 = woQ 0 0 * woR2 0 0
      rw [habs2]
      norm_num [woQ, woR2]
    · exact SweepFrom.nil _ woR2

lemma woSweep2 : SweepFrom 1 Imat (scaleLast wou woQs) woQs2 (woQ 0 0) := by
  have habs1 : (absorb Imat 1 wop1).A 0 0 0 = 1 := by
    show (∑ c ∈ Finset.range 1, Imat 0 c * wop1.A 0 c 0) = 1
    rw [Finset.sum_range_one]
    show Imat 0 0 * woQ (0 * 1 + 0) 0 = 1
    simp [Imat, woQ]
  have habs2 : (absorb woQ 1 wop2s).A 0 0 0 = 1 := by
    show (∑ c ∈ Finset.range 1, woQ 0 c * wop2s.A 0 c 0) = 1
    rw [Finset.sum_range_one]
    show woQ 0 0 * (wou * wop2.A 0 0 0) = 1
    rw [wou_eq]
    show (1 : ℚ) * (1 * woQ (0 * 1 + 0) 0) = 1
    simp [woQ]
  show SweepFrom 1 Imat [wop1, wop2s] woQs2 (woQ 0 0)
  refine SweepFrom.cons 1 Imat wop1 [wop2s]
    [siteOf (absorb woQ 1 wop2s) woQ 1] woQ woQ (woQ 0 0) ?_ ?_ ?_
  · exact nondeg_one _ rfl rfl rfl (by rw [habs1]; norm_num)
  · refine qrspec_one _ _ _ rfl (by norm_num [woQ]) ?_
    show (absorb Imat 1 wop1).A 0 0 0 = woQ 0 0 * woQ 0 0
    rw [habs1]
    norm_num [woQ]
  · refine SweepFrom.cons _ woQ wop2s [] [] woQ woQ (woQ 0 0) ?_ ?_ ?_
    · refine nondeg_one _ rfl rfl rfl ?_
      show (absorb woQ 1 wop2s).A 0 0 0 ≠ 0
      rw [habs2]
      norm_num
    · refine qrspec_one _ _ _ rfl (by norm_num [woQ]) ?_
      show (absorb woQ 1 wop2s).A 0 0 0 = woQ 0 0 * woQ 0 0
      rw [habs2]
      norm_num [woQ]
    · exact SweepFrom.nil _ woQ

lemma wfails : SweepFails 1 Imat [wzero1] := by
  refine SweepFails.here 1 Imat wzero1 [] ?_
  rintro ⟨-, -, -, s, hs, a, ha, b, hb, hA⟩
  apply hA
  show (∑ c ∈ Finset.range 1, Imat a c * wzero1.A s c b) = 0
  simp [wzero1]

/-- Witness for the norm property on the concrete two-site chain: the call
returns the prior norm |6| and the post-call squared norm is 1. -/
theorem orthonormalize_norm_check :
    0 ≤ |woR2 0 0| ∧ |woR2 0 0| * |woR2 0 0| = normSq [wot1, wot2] ∧
      normSq (scaleLast (woR2 0 0 / |woR2 0 0|) woQs) = 1 :=
  orthonormalize_norm (OrthoOutcome.success [wot1, wot2] woQs (woR2 0 0) woSweep)
    ⟨rfl, rfl, trivial⟩ rfl (List.cons_ne_nil _ _)

/-- Witness for left-orthonormality on the concrete two-site chain: the
first (non-final) post-call site tensor is left-orthonormal. -/
theorem orthonormalize_left_orthonormal_check :
    0 + 1 < (scaleLast (woR2 0 0 / |woR2 0 0|) woQs).length ∧
      leftOrthonormal ((scaleLast (woR2 0 0 / |woR2 0 0|) woQs).getD 0 default) := by
  have hlen : 0 + 1 < (scaleLast (woR2 0 0 / |woR2 0 0|) woQs).length := by decide
  exact ⟨hlen, orthonormalize_left_orthonormal
    (OrthoOutcome.success [wot1, wot2] woQs (woR2 0 0) woSweep) 0 hlen⟩

/-- Witness for idempotence on the concrete two-site chain: the second call
returns 1 and reproduces the tensors of the first call's output. -/
theorem orthonormalize_idempotent_check :
    |woQ 0 0| = (1 : ℚ) ∧
      EquivL (scaleLast (woQ 0 0 / |woQ 0 0|) woQs2)
        (scaleLast (woR2 0 0 / |woR2 0 0|) woQs) :=
  orthonormalize_idempotent
    (OrthoOutcome.success [wot1, wot2] woQs (woR2 0 0) woSweep)
    (OrthoOutcome.success (scaleLast (woR2 0 0 / |woR2 0 0|) woQs) woQs2
      (woQ 0 0) woSweep2)
    ⟨rfl, rfl, trivial⟩ (List.cons_ne_nil _ _)

/-- Witness for atomicity: on the all-zero one-site chain the failing call
leaves the chain exactly as it was. -/
theorem orthonormalize_atomic_check :
    ([wzero1] : List (MPSTensor ℚ)) = [wzero1] :=
  orthonormalize_atomic (OrthoOutcome.failure [wzero1] wfails)

/-- Witness for the degenerate-bond error: the all-zero one-site chain has a
degenerate site and the call reports `degenerateBond`. -/
theorem orthonormalize_degenerate_check :
    0 < ([wzero1] : List (MPSTensor ℚ)).length ∧
      BadSite (([wzero1] : List (MPSTensor ℚ)).getD 0 default) ∧
      (Except.error TNError.degenerateBond : Except TNError ℚ) =
        Except.error TNError.degenerateBond := by
  have hlen : 0 < ([wzero1] : List (MPSTensor ℚ)).length := by decide
  have hbad : BadSite (([wzero1] : List (MPSTensor ℚ)).getD 0 default) :=
    Or.inr (Or.inr fun _ _ _ _ _ _ => rfl)
  exact ⟨hlen, hbad,
    orthonormalize_degenerate hlen hbad (OrthoOutcome.failure [wzero1] wfails)⟩
